import Mathlib

/-!
Shallow embedding of src/cubical/data_handler.py (the CubiCal data
handler): the cube transposer (Tile._column_to_cube and
Tile._cube_to_column), the partitioner (ReadModelHandler.define_chunk)
with its tiling and coarsening passes, chunk cube assembly
(Tile.get_chunk_cubes), write-back (Tile.set_chunk_cubes), the bitflag
resolution block of Tile.load, and the excess-row branch of
Tile.prep_for_montblanc.

Modelling conventions: numpy arrays become total functions from Nat
indices (cells outside the array bounds are never relevant to a
statement); machine integers become Nat or Int; complex column entries
become exact integer pairs with exact conjugation; fallible operations
return Option or Except.
-/

namespace CubiCal

/-- Exact complex value (re + im * i) with integer parts; stands for the
numpy complex entries of visibility columns.  Conjugation is exact, as
required by the Hermitian-symmetry contract of the transposer. -/
structure Cplx where
  re : Int
  im : Int
deriving DecidableEq

def Cplx.conj (z : Cplx) : Cplx := ⟨z.re, -z.im⟩

instance : Zero Cplx := ⟨⟨0, 0⟩⟩

theorem Cplx.conj_conj (z : Cplx) : z.conj.conj = z := by
  cases z; simp [Cplx.conj]

theorem Cplx.conj_zero : (0 : Cplx).conj = 0 := rfl

/-- Modelled from the spec: flag-kind bit constants from the external
flag policy module (cubical.flagging.FL is imported by data_handler.py
but is not part of src).  The spec names a small set of flag-kind bits
PRIOR, INVALID, MISSING used additively as distinct nonzero bits. -/
def FL.PRIOR : Nat := 1

/-- Modelled from the spec: the INVALID flag bit (see FL.PRIOR). -/
def FL.INVALID : Nat := 2

/-- Modelled from the spec: the MISSING flag bit (see FL.PRIOR). -/
def FL.MISSING : Nat := 4

/-- Minimum of a list of naturals; models np.min over a chunk row
selection (the source never takes the minimum of an empty chunk). -/
def listMin : List Nat → Nat
  | [] => 0
  | [a] => a
  | a :: b :: t => min a (listMin (b :: t))

/-- Last element of rows satisfying p.  Models the effect of a numpy
fancy-index bulk assignment: among several rows writing the same cell,
the one latest in the row list wins. -/
def lastWriter (rows : List Nat) (p : Nat → Bool) : Option Nat :=
  (rows.filter p).getLast?

/-- Which column correlation feeds cube correlation slot c in the direct
(achunk, bchunk) write of _column_to_cube: all four slots for ncorr = 4;
slots 0 and 3 from column correlations 0 and 1 for ncorr = 2 (the
corr_slice 0::3); slots 0 and 3 both from column correlation 0 for
ncorr = 1 (colsel = column[..., (0, 0)]).  Other correlation counts fall
through all branches and write nothing. -/
def corrSrc (ncorr c : Nat) : Option Nat :=
  if ncorr = 4 then (if c < 4 then some c else none)
  else if ncorr = 2 then (if c = 0 then some 0 else if c = 3 then some 1 else none)
  else if ncorr = 1 then (if c = 0 ∨ c = 3 then some 0 else none)
  else none

/-- The 4-correlation mirror permutation (0,1,2,3) to (0,2,1,3). -/
def perm4 (c : Nat) : Nat := [0, 2, 1, 3].getD c 0

/-- Which column correlation feeds cube slot c in the mirrored
(bchunk, achunk) write: colsel[..., (0,2,1,3)] for 4 correlations, the
direct mapping otherwise. -/
def mirrorCorrSrc (ncorr c : Nat) : Option Nat :=
  if ncorr = 4 then (if c < 4 then some (perm4 c) else none)
  else corrSrc ncorr c

/-- The rows of a chunk that write cube cell (t, a, b) in the direct pass
of _column_to_cube: rows whose in-chunk timeslot
times[r] - np.min(times[rows]) is t and whose antenna pair is (a, b).
The mirror pass writing cell (t, a, b) is exactly the direct predicate
with a and b swapped. -/
def writerPred (antea anteb times : Nat → Nat) (rows : List Nat) (t a b : Nat) :
    Nat → Bool :=
  fun r => decide (times r - listMin (rows.map times) = t ∧ antea r = a ∧ anteb r = b)

/-- Tile._column_to_cube (data_handler.py lines 595-685), described per
cell of the output cube [t, f, a, b, c].  The source allocates a cube
prefilled with zeroval, bulk-writes column data at cube positions
[tchunk, :, achunk, bchunk, corr_slice], then overwrites the mirror
positions [tchunk, :, bchunk, achunk, corr_slice] with the conjugated
(for complex dtype) correlation-swapped values, and finally overwrites
the whole antenna diagonal with zeroval.  Here tchunk is
times[rows] - np.min(times[rows]); conjV is the conjugation applied in
the dtype == ctype branch (id for non-complex columns such as flags);
f0 is the start of the frequency slice applied to the column. -/
def columnToCube (antea anteb times : Nat → Nat) (ncorr : Nat) (rows : List Nat)
    (f0 : Nat) {V : Type} (conjV : V → V) (zeroval : V)
    (column : Nat → Nat → Nat → V) : Nat → Nat → Nat → Nat → Nat → V :=
  fun t f a b c =>
    if a = b then zeroval
    else
      match lastWriter rows (writerPred antea anteb times rows t b a),
            mirrorCorrSrc ncorr c with
      | some r, some cs => conjV (column r (f0 + f) cs)
      | _, _ =>
        match lastWriter rows (writerPred antea anteb times rows t a b),
              corrSrc ncorr c with
        | some r, some cs => column r (f0 + f) cs
        | _, _ => zeroval

/-- Numpy index semantics for a possibly negative integer index into an
axis of length n: in-range nonnegative indices are kept, negative
indices of magnitude at most n wrap to n + x, and anything else raises
IndexError (modelled as none). -/
def wrapIdx (n : Nat) (x : Int) : Option Nat :=
  if 0 ≤ x ∧ x < (n : Int) then some x.toNat
  else if -(n : Int) ≤ x ∧ x < 0 then some ((n : Int) + x).toNat
  else none

/-- Which cube correlation slot feeds column correlation c in
_cube_to_column: all four for ncorr = 4; slots 0 and 3 (chunk[..., ::3])
for ncorr = 2; slot 0 (chunk[..., :1]) for ncorr = 1; nothing is written
for any other correlation count. -/
def corrGather (ncorr c : Nat) : Option Nat :=
  if ncorr = 4 then (if c < 4 then some c else none)
  else if ncorr = 2 then (if c = 0 then some 0 else if c = 1 then some 3 else none)
  else if ncorr = 1 then (if c = 0 then some 0 else none)
  else none

/-- Tile._cube_to_column (lines 688-715), non-flag path.  The source
gathers chunk = in_arr[tchunk, :, achunk, bchunk, :] (after merging the
trailing 2x2 correlation axes back into one axis of length 4) and
assigns it into column[rows, f0:f1, :], selecting correlation subsets
for 2- and 1-correlation data.  tchunk is times[rows] - times[rows][0]
(the first row of the chunk, not the minimum over the chunk), so a row
whose timeslot precedes that of the first row yields a negative index,
which numpy wraps.  Returns the updated column, or none when an index is
out of range (IndexError) or rows is empty. -/
def cubeToColumn (antea anteb times : Nat → Nat) (tdim ncorr : Nat)
    (rows : List Nat) (f0 f1 : Nat) {V : Type}
    (column : Nat → Nat → Nat → V)
    (cube : Nat → Nat → Nat → Nat → Nat → V) :
    Option (Nat → Nat → Nat → V) :=
  match rows with
  | [] => none
  | r0 :: _ =>
    if rows.all (fun r => (wrapIdx tdim ((times r : Int) - (times r0 : Int))).isSome) then
      some (fun r f c =>
        if r ∈ rows ∧ f0 ≤ f ∧ f < f1 then
          match wrapIdx tdim ((times r : Int) - (times r0 : Int)), corrGather ncorr c with
          | some ti, some cs => cube ti (f - f0) (antea r) (anteb r) cs
          | _, _ => column r f c
        else column r f c)
    else none

/-- Tile._cube_to_column (lines 688-715), flag path (flags=True): the
flag cube has no correlation axis, and its value is broadcast over all
correlations of column[rows, f0:f1, :]. -/
def flagCubeToColumn (antea anteb times : Nat → Nat) (tdim : Nat)
    (rows : List Nat) (f0 f1 : Nat)
    (column : Nat → Nat → Nat → Nat)
    (fcube : Nat → Nat → Nat → Nat → Nat) :
    Option (Nat → Nat → Nat → Nat) :=
  match rows with
  | [] => none
  | r0 :: _ =>
    if rows.all (fun r => (wrapIdx tdim ((times r : Int) - (times r0 : Int))).isSome) then
      some (fun r f c =>
        if r ∈ rows ∧ f0 ≤ f ∧ f < f1 then
          match wrapIdx tdim ((times r : Int) - (times r0 : Int)) with
          | some ti => fcube ti (f - f0) (antea r) (anteb r)
          | none => column r f c
        else column r f c)
    else none

/-! Helper lemmas about listMin and lastWriter. -/

theorem getLast?_all_eq {α : Type} {l : List α} {r : α} (hne : l ≠ [])
    (hall : ∀ x ∈ l, x = r) : l.getLast? = some r := by
  induction l with
  | nil => exact absurd rfl hne
  | cons a t ih =>
    cases t with
    | nil =>
      have : a = r := hall a (by simp)
      simp [this]
    | cons b t2 =>
      rw [List.getLast?_cons_cons]
      exact ih (by simp) (fun x hx => hall x (by simp [hx]))

theorem lastWriter_isNone {rows : List Nat} {p : Nat → Bool}
    (h : ∀ x ∈ rows, ¬ p x = true) : lastWriter rows p = none := by
  unfold lastWriter
  rw [List.filter_eq_nil_iff.mpr h]
  rfl

theorem lastWriter_unique {rows : List Nat} {p : Nat → Bool} {r : Nat}
    (hmem : r ∈ rows) (hp : p r = true)
    (huniq : ∀ x ∈ rows, p x = true → x = r) : lastWriter rows p = some r := by
  unfold lastWriter
  apply getLast?_all_eq
  · intro hemp
    have hin : r ∈ rows.filter p := List.mem_filter.mpr ⟨hmem, hp⟩
    rw [hemp] at hin
    exact absurd hin (List.not_mem_nil r)
  · intro x hx
    have hx2 := List.mem_filter.mp hx
    exact huniq x hx2.1 hx2.2

theorem lastWriter_spec {rows : List Nat} {p : Nat → Bool} {r : Nat}
    (h : lastWriter rows p = some r) : r ∈ rows ∧ p r = true := by
  unfold lastWriter at h
  have hmem : r ∈ rows.filter p := by
    have := List.mem_of_mem_getLast? (l := rows.filter p) (a := r)
    exact this h
  exact List.mem_filter.mp hmem

theorem listMin_le {l : List Nat} {x : Nat} (h : x ∈ l) : listMin l ≤ x := by
  induction l with
  | nil => simp at h
  | cons a t ih =>
    cases t with
    | nil =>
      simp at h
      simp [listMin, h]
    | cons b t2 =>
      simp only [listMin]
      rcases List.mem_cons.mp h with h1 | h2
      · exact le_trans (min_le_left _ _) (le_of_eq h1.symm)
      · exact le_trans (min_le_right _ _) (ih h2)

theorem le_listMin {l : List Nat} {a : Nat} (hne : l ≠ [])
    (h : ∀ x ∈ l, a ≤ x) : a ≤ listMin l := by
  induction l with
  | nil => exact absurd rfl hne
  | cons x t ih =>
    cases t with
    | nil => simpa [listMin] using h x (by simp)
    | cons b t2 =>
      simp only [listMin, le_min_iff]
      exact ⟨h x (by simp), ih (by simp) (fun y hy => h y (by simp [hy]))⟩

theorem listMin_eq_head {a : Nat} {t : List Nat}
    (h : ∀ x ∈ a :: t, a ≤ x) : listMin (a :: t) = a :=
  le_antisymm (listMin_le (by simp)) (le_listMin (by simp) h)

/-- Off-diagonal evaluation form of columnToCube, for case analysis. -/
theorem columnToCube_apply (antea anteb times : Nat → Nat) (ncorr : Nat)
    (rows : List Nat) (f0 : Nat) {V : Type} (conjV : V → V) (zeroval : V)
    (column : Nat → Nat → Nat → V) (t f a b c : Nat) (hab : a ≠ b) :
    columnToCube antea anteb times ncorr rows f0 conjV zeroval column t f a b c =
      match lastWriter rows (writerPred antea anteb times rows t b a),
            mirrorCorrSrc ncorr c with
      | some r, some cs => conjV (column r (f0 + f) cs)
      | _, _ =>
        match lastWriter rows (writerPred antea anteb times rows t a b),
              corrSrc ncorr c with
        | some r, some cs => column r (f0 + f) cs
        | _, _ => zeroval := by
  simp only [columnToCube]
  rw [if_neg hab]

/-- Diagonal evaluation of columnToCube: the final overwrite of the
antenna diagonal leaves zeroval there. -/
theorem columnToCube_diag (antea anteb times : Nat → Nat) (ncorr : Nat)
    (rows : List Nat) (f0 : Nat) {V : Type} (conjV : V → V) (zeroval : V)
    (column : Nat → Nat → Nat → V) (t f a c : Nat) :
    columnToCube antea anteb times ncorr rows f0 conjV zeroval column t f a a c
      = zeroval := by
  simp [columnToCube]

theorem times_sub_cancel {times : Nat → Nat} {rows : List Nat} {x y : Nat}
    (hx : x ∈ rows) (hy : y ∈ rows)
    (h : times x - listMin (rows.map times) = times y - listMin (rows.map times)) :
    times x = times y := by
  have h1 : listMin (rows.map times) ≤ times x := listMin_le (List.mem_map_of_mem times hx)
  have h2 : listMin (rows.map times) ≤ times y := listMin_le (List.mem_map_of_mem times hy)
  omega

/-- If the rows of a chunk carry pairwise distinct (timeslot, unordered
antenna pair) coordinates, no cube cell receives both a direct write and
a mirror write. -/
theorem not_both_writers {antea anteb times : Nat → Nat} {rows : List Nat}
    {t a b : Nat}
    (hdist : ∀ x ∈ rows, ∀ y ∈ rows, x ≠ y →
      ¬(times x = times y ∧ ((antea x = antea y ∧ anteb x = anteb y) ∨
        (antea x = anteb y ∧ anteb x = antea y))))
    (hab : a ≠ b) {r1 r2 : Nat}
    (h1 : lastWriter rows (writerPred antea anteb times rows t b a) = some r1)
    (h2 : lastWriter rows (writerPred antea anteb times rows t a b) = some r2) :
    False := by
  obtain ⟨hm1, hp1⟩ := lastWriter_spec h1
  obtain ⟨hm2, hp2⟩ := lastWriter_spec h2
  simp only [writerPred, decide_eq_true_eq] at hp1 hp2
  obtain ⟨ht1, ha1, hb1⟩ := hp1
  obtain ⟨ht2, ha2, hb2⟩ := hp2
  have hne : r1 ≠ r2 := by
    intro h
    subst h
    exact hab (by omega)
  exact hdist r1 hm1 r2 hm2 hne
    ⟨times_sub_cancel hm1 hm2 (by omega), Or.inr ⟨by omega, by omega⟩⟩

/-- C3: for every complex-valued cube produced by _column_to_cube from a
chunk whose rows have pairwise distinct (timeslot, unordered antenna
pair) coordinates and no autocorrelations, the antenna-pair mirror is
the exact complex conjugate with correlation indices permuted by
(0,1,2,3) to (0,2,1,3) for 4 correlations, and the plain conjugate for
1 or 2 correlations. -/
theorem C3_mirror_hermitian
    (antea anteb times : Nat → Nat) (ncorr : Nat) (rows : List Nat) (f0 : Nat)
    (column : Nat → Nat → Nat → Cplx)
    (hdist : ∀ x ∈ rows, ∀ y ∈ rows, x ≠ y →
      ¬(times x = times y ∧ ((antea x = antea y ∧ anteb x = anteb y) ∨
        (antea x = anteb y ∧ anteb x = antea y))))
    (_hauto : ∀ r ∈ rows, antea r ≠ anteb r)
    (hncorr : ncorr = 1 ∨ ncorr = 2 ∨ ncorr = 4) :
    ∀ t f a b c, c < 4 →
      columnToCube antea anteb times ncorr rows f0 Cplx.conj 0 column t f a b c
        = Cplx.conj (columnToCube antea anteb times ncorr rows f0 Cplx.conj 0 column
            t f b a (if ncorr = 4 then perm4 c else c)) := by
  intro t f a b c hc
  have hc4 : c = 0 ∨ c = 1 ∨ c = 2 ∨ c = 3 := by omega
  by_cases hab : a = b
  · subst hab
    rw [columnToCube_diag, columnToCube_diag]
    rfl
  · have hba : b ≠ a := fun h => hab h.symm
    rw [columnToCube_apply antea anteb times ncorr rows f0 Cplx.conj 0 column t f a b c hab,
        columnToCube_apply antea anteb times ncorr rows f0 Cplx.conj 0 column t f b a
          (if ncorr = 4 then perm4 c else c) hba]
    rcases hM : lastWriter rows (writerPred antea anteb times rows t b a) with _ | rm <;>
      rcases hD : lastWriter rows (writerPred antea anteb times rows t a b) with _ | rd
    · rcases hncorr with h | h | h <;> subst h <;>
        rcases hc4 with h | h | h | h <;> subst h <;>
        simp [mirrorCorrSrc, corrSrc, perm4, Cplx.conj_zero]
    · rcases hncorr with h | h | h <;> subst h <;>
        rcases hc4 with h | h | h | h <;> subst h <;>
        simp [mirrorCorrSrc, corrSrc, perm4, Cplx.conj_zero, Cplx.conj_conj]
    · rcases hncorr with h | h | h <;> subst h <;>
        rcases hc4 with h | h | h | h <;> subst h <;>
        simp [mirrorCorrSrc, corrSrc, perm4, Cplx.conj_zero, Cplx.conj_conj]
    · exact (not_both_writers hdist hab hM hD).elim

/-- Concrete instance for C3, following the spec scenario: one row with
antenna pair (1, 2) and value 3 + 4i on correlation 1 of a
4-correlation dataset. -/
def specAntea : Nat → Nat := fun _ => 1

/-- Antenna-B index column of the C3 scenario. -/
def specAnteb : Nat → Nat := fun _ => 2

/-- Timeslot index column of the C3 scenario. -/
def specTimes : Nat → Nat := fun _ => 0

/-- Data column of the C3 scenario. -/
def specColumn : Nat → Nat → Nat → Cplx := fun _ _ c => if c = 1 then ⟨3, 4⟩ else 0

/-- C3 witness: the mirror theorem applied to the concrete spec scenario
at cube cell (t 0, f 0, a 2, b 1, corr 2). -/
theorem C3_mirror_hermitian_witness :
    columnToCube specAntea specAnteb specTimes 4 [0] 0 Cplx.conj 0 specColumn 0 0 2 1 2
      = Cplx.conj (columnToCube specAntea specAnteb specTimes 4 [0] 0 Cplx.conj 0
          specColumn 0 0 1 2 (if 4 = 4 then perm4 2 else 2)) :=
  C3_mirror_hermitian specAntea specAnteb specTimes 4 [0] 0 specColumn
    (by decide) (by decide) (by decide) 0 0 2 1 2 (by decide)

/-- C8 counterexample: _column_to_cube called with a nonzero fill value
(as the flag-cube call in get_chunk_cubes does, with fill FL.MISSING)
leaves the fill value, not zero, on the antenna diagonal. -/
theorem C8_counterexample :
    columnToCube (fun _ => 0) (fun _ => 1) (fun _ => 0) 4 [0] 0 id FL.MISSING
        (fun _ _ _ => 0) 0 0 0 0 0 = FL.MISSING
      ∧ FL.MISSING ≠ 0 := by
  constructor
  · exact columnToCube_diag _ _ _ _ _ _ _ _ _ _ _ _ _
  · decide

/-- C8 (amended): after any _column_to_cube call, every antenna-diagonal
entry of the returned cube equals the fill value zeroval (the final
diagonal overwrite uses zeroval, which is zero at every complex call
site but FL.MISSING for flag cubes). -/
theorem C8_diagonal_eq_fill (antea anteb times : Nat → Nat) (ncorr : Nat)
    (rows : List Nat) (f0 : Nat) {V : Type} (conjV : V → V) (zeroval : V)
    (column : Nat → Nat → Nat → V) (t f a c : Nat) :
    columnToCube antea anteb times ncorr rows f0 conjV zeroval column t f a a c
      = zeroval :=
  columnToCube_diag antea anteb times ncorr rows f0 conjV zeroval column t f a c

/-- Python range(start, stop, step) for positive step: start + i * step
for the ceil((stop - start) / step) values below stop. -/
def pyRange (start stop step : Nat) : List Nat :=
  (List.range ((stop - start + step - 1) / step)).map (fun i => start + i * step)

/-- The time-chunk boundary list of define_chunk (lines 1100-1107) when
no chunk_by columns are given: range(0, times[-1], tdim) followed by the
final boundary times[-1] + 1, where times[-1] is the timeslot index of
the last row of the selection. -/
def timechunksOf (lastTs tdim : Nat) : List Nat := pyRange 0 lastTs tdim ++ [lastTs + 1]

/-- C4: evaluation of the time-chunk boundaries at the spec scenario
(3 timeslots, so times[-1] = 2, and time_chunk_size = 2).  The code
yields a single time chunk [0, 3), not the uniform subdivision
[0, 2) and [2, 3) required by the spec, because the range stops at the
last timeslot index times[-1] = ntime - 1 instead of the timeslot count
ntime (the chunk_by branch and the frequency-chunk code both use the
count). -/
theorem C4_timechunks_eval :
    timechunksOf 2 2 = [0, 3] ∧ timechunksOf 2 2 ≠ [0, 2, 3] := by decide

/-- Under pairwise distinct (timeslot, ordered antenna pair) coordinates,
the one row carrying the coordinates of cube cell
(times r - min, antea r, anteb r) is its unique direct writer. -/
theorem direct_writer_eq {antea anteb times : Nat → Nat} {rows : List Nat}
    (hdist : ∀ x ∈ rows, ∀ y ∈ rows, x ≠ y →
      ¬(times x = times y ∧ ((antea x = antea y ∧ anteb x = anteb y) ∨
        (antea x = anteb y ∧ anteb x = antea y))))
    {r : Nat} (hr : r ∈ rows) :
    lastWriter rows (writerPred antea anteb times rows
        (times r - listMin (rows.map times)) (antea r) (anteb r)) = some r := by
  apply lastWriter_unique hr
  · simp [writerPred]
  · intro x hx hpx
    simp only [writerPred, decide_eq_true_eq] at hpx
    obtain ⟨ht, ha, hb⟩ := hpx
    by_contra hne
    exact hdist x hx r hr hne ⟨times_sub_cancel hx hr ht, Or.inl ⟨ha, hb⟩⟩

/-- Under distinct unordered coordinates and no autocorrelation rows, the
cube cell of a row receives no mirror write. -/
theorem mirror_writer_none {antea anteb times : Nat → Nat} {rows : List Nat}
    (hdist : ∀ x ∈ rows, ∀ y ∈ rows, x ≠ y →
      ¬(times x = times y ∧ ((antea x = antea y ∧ anteb x = anteb y) ∨
        (antea x = anteb y ∧ anteb x = antea y))))
    (hauto : ∀ r ∈ rows, antea r ≠ anteb r)
    {r : Nat} (hr : r ∈ rows) :
    lastWriter rows (writerPred antea anteb times rows
        (times r - listMin (rows.map times)) (anteb r) (antea r)) = none := by
  apply lastWriter_isNone
  intro x hx hpx
  simp only [writerPred, decide_eq_true_eq] at hpx
  obtain ⟨ht, ha, hb⟩ := hpx
  by_cases hxr : x = r
  · subst hxr
    exact hauto x hx (by omega)
  · exact hdist x hx r hr hxr ⟨times_sub_cancel hx hr ht, Or.inr ⟨ha, hb⟩⟩

/-- Evaluation of a cube cell at the coordinates of one of the rows of a
well-formed chunk: the cell holds exactly the column data of that row at
the source correlation given by corrSrc. -/
theorem cube_cell_direct {antea anteb times : Nat → Nat} {ncorr : Nat}
    {rows : List Nat} {f0 : Nat} {column : Nat → Nat → Nat → Cplx}
    (hdist : ∀ x ∈ rows, ∀ y ∈ rows, x ≠ y →
      ¬(times x = times y ∧ ((antea x = antea y ∧ anteb x = anteb y) ∨
        (antea x = anteb y ∧ anteb x = antea y))))
    (hauto : ∀ r ∈ rows, antea r ≠ anteb r)
    {r : Nat} (hr : r ∈ rows) (fc : Nat) {c cs : Nat}
    (hcs : corrSrc ncorr c = some cs) :
    columnToCube antea anteb times ncorr rows f0 Cplx.conj 0 column
        (times r - listMin (rows.map times)) fc (antea r) (anteb r) c
      = column r (f0 + fc) cs := by
  rw [columnToCube_apply antea anteb times ncorr rows f0 Cplx.conj 0 column
      (times r - listMin (rows.map times)) fc (antea r) (anteb r) c (hauto r hr)]
  rw [mirror_writer_none hdist hauto hr, direct_writer_eq hdist hr, hcs]

/-- C1 (amended): the cube-and-back round trip restores the column
exactly on every chunk cell, for every supported correlation count,
provided additionally that the first row of the chunk carries the
minimal chunk timeslot (cube_to_column subtracts times[rows][0] while
column_to_cube subtracts min(times[rows])) and that the chunk timeslot
span fits the cube time dimension. -/
theorem C1_roundtrip
    (antea anteb times : Nat → Nat) (ncorr tdim : Nat) (rows : List Nat)
    (f0 f1 : Nat) (column : Nat → Nat → Nat → Cplx)
    (hdist : ∀ x ∈ rows, ∀ y ∈ rows, x ≠ y →
      ¬(times x = times y ∧ ((antea x = antea y ∧ anteb x = anteb y) ∨
        (antea x = anteb y ∧ anteb x = antea y))))
    (hauto : ∀ r ∈ rows, antea r ≠ anteb r)
    (hncorr : ncorr = 1 ∨ ncorr = 2 ∨ ncorr = 4)
    (hhead : ∀ r ∈ rows, times (rows.headD 0) ≤ times r)
    (htdim : ∀ r ∈ rows, times r - times (rows.headD 0) < tdim)
    (hne : rows ≠ []) :
    ∃ col2,
      cubeToColumn antea anteb times tdim ncorr rows f0 f1 column
          (columnToCube antea anteb times ncorr rows f0 Cplx.conj 0 column) = some col2
        ∧ ∀ r ∈ rows, ∀ f, f0 ≤ f → f < f1 → ∀ c, c < ncorr →
            col2 r f c = column r f c := by
  obtain ⟨r0, rest, rfl⟩ : ∃ r0 rest, rows = r0 :: rest := by
    cases rows with
    | nil => exact absurd rfl hne
    | cons a t => exact ⟨a, t, rfl⟩
  have hhead0 : ∀ r ∈ r0 :: rest, times r0 ≤ times r := by
    simpa using hhead
  have hmin : listMin ((r0 :: rest).map times) = times r0 := by
    rw [List.map_cons]
    apply listMin_eq_head
    intro x hx
    rcases List.mem_cons.mp hx with h1 | h2
    · omega
    · obtain ⟨y, hy, rfl⟩ := List.mem_map.mp h2
      exact hhead0 y (List.mem_cons_of_mem r0 hy)
  have hvalid : ∀ r ∈ r0 :: rest,
      wrapIdx tdim ((times r : Int) - (times r0 : Int)) = some (times r - times r0) := by
    intro r hr
    have h0 : times r0 ≤ times r := hhead0 r hr
    have h1 : times r - times r0 < tdim := by simpa using htdim r hr
    unfold wrapIdx
    rw [if_pos (by constructor <;> omega)]
    congr 1
    omega
  have hall : ((r0 :: rest).all
      (fun r => (wrapIdx tdim ((times r : Int) - (times r0 : Int))).isSome)) = true := by
    rw [List.all_eq_true]
    intro r hr
    rw [hvalid r hr]
    rfl
  simp only [cubeToColumn]
  rw [if_pos hall]
  refine ⟨_, rfl, ?_⟩
  intro r hr f hf0 hf1 c hc
  rw [if_pos ⟨hr, hf0, hf1⟩, hvalid r hr]
  have hf : f0 + (f - f0) = f := by omega
  have ht : times r - times r0 = times r - listMin ((r0 :: rest).map times) := by
    rw [hmin]
  rcases hncorr with h | h | h <;> subst h
  · have hc0 : c = 0 := by omega
    subst hc0
    rw [show corrGather 1 0 = some 0 from rfl, ht]
    exact (cube_cell_direct hdist hauto hr (f - f0)
      (show corrSrc 1 0 = some 0 from rfl)).trans (by rw [hf])
  · have hc2 : c = 0 ∨ c = 1 := by omega
    rcases hc2 with h | h <;> subst h
    · rw [show corrGather 2 0 = some 0 from rfl, ht]
      exact (cube_cell_direct hdist hauto hr (f - f0)
        (show corrSrc 2 0 = some 0 from rfl)).trans (by rw [hf])
    · rw [show corrGather 2 1 = some 3 from rfl, ht]
      exact (cube_cell_direct hdist hauto hr (f - f0)
        (show corrSrc 2 3 = some 1 from rfl)).trans (by rw [hf])
  · have hc4 : c = 0 ∨ c = 1 ∨ c = 2 ∨ c = 3 := by omega
    rcases hc4 with h | h | h | h <;> subst h
    · rw [show corrGather 4 0 = some 0 from rfl, ht]
      exact (cube_cell_direct hdist hauto hr (f - f0)
        (show corrSrc 4 0 = some 0 from rfl)).trans (by rw [hf])
    · rw [show corrGather 4 1 = some 1 from rfl, ht]
      exact (cube_cell_direct hdist hauto hr (f - f0)
        (show corrSrc 4 1 = some 1 from rfl)).trans (by rw [hf])
    · rw [show corrGather 4 2 = some 2 from rfl, ht]
      exact (cube_cell_direct hdist hauto hr (f - f0)
        (show corrSrc 4 2 = some 2 from rfl)).trans (by rw [hf])
    · rw [show corrGather 4 3 = some 3 from rfl, ht]
      exact (cube_cell_direct hdist hauto hr (f - f0)
        (show corrSrc 4 3 = some 3 from rfl)).trans (by rw [hf])

/-- Concrete two-row chunk for the C1 witness: baseline (0, 1) at
timeslots 0 and 1 in row order. -/
def rtAntea : Nat → Nat := fun _ => 0

/-- Antenna-B column of the C1 instances. -/
def rtAnteb : Nat → Nat := fun _ => 1

/-- Time-sorted timeslot column (row r has timeslot r). -/
def rtTimes : Nat → Nat := fun r => r

/-- Distinct column data per (row, channel, correlation) cell. -/
def rtColumn : Nat → Nat → Nat → Cplx :=
  fun r f c => ⟨(r : Int) * 100 + (f : Int) * 10 + (c : Int), 1⟩

/-- C1 witness: the round-trip theorem applied to a concrete time-sorted
two-row chunk with 4 correlations and 3 channels. -/
theorem C1_roundtrip_witness :
    ∃ col2,
      cubeToColumn rtAntea rtAnteb rtTimes 2 4 [0, 1] 0 3 rtColumn
          (columnToCube rtAntea rtAnteb rtTimes 4 [0, 1] 0 Cplx.conj 0 rtColumn)
        = some col2
        ∧ ∀ r ∈ [0, 1], ∀ f, 0 ≤ f → f < 3 → ∀ c, c < 4 →
            col2 r f c = rtColumn r f c :=
  C1_roundtrip rtAntea rtAnteb rtTimes 4 2 [0, 1] 0 3 rtColumn (by decide)
    (by decide) (by decide) (by decide) (by decide) (by decide)

/-- Timeslot column that is not sorted along rows: row 0 has timeslot 1,
row 1 has timeslot 0. -/
def cxTimes : Nat → Nat := fun r => 1 - r

/-- C1 counterexample: a chunk whose rows satisfy every hypothesis of
the claim (pairwise distinct (timeslot, antenna pair), no
autocorrelations, no repeated unordered pair per timeslot, supported
correlation count 1), yet whose first row does not carry the minimal
timeslot: _cube_to_column subtracts times[rows][0] = 1 while
_column_to_cube subtracted min = 0, so the round trip writes the wrong
cells back (row 0 receives the data of row 1). -/
theorem C1_counterexample :
    (∀ x ∈ [0, 1], ∀ y ∈ [0, 1], x ≠ y →
      ¬(cxTimes x = cxTimes y ∧ ((rtAntea x = rtAntea y ∧ rtAnteb x = rtAnteb y) ∨
        (rtAntea x = rtAnteb y ∧ rtAnteb x = rtAntea y))))
    ∧ (∀ r ∈ [0, 1], rtAntea r ≠ rtAnteb r)
    ∧ ((1 : Nat) = 1 ∨ (1 : Nat) = 2 ∨ (1 : Nat) = 4)
    ∧ (cubeToColumn rtAntea rtAnteb cxTimes 2 1 [0, 1] 0 1 rtColumn
        (columnToCube rtAntea rtAnteb cxTimes 1 [0, 1] 0 Cplx.conj 0 rtColumn)).map
          (fun g => decide (g 0 0 0 = rtColumn 0 0 0)) = some false := by decide

/-! Tile.get_chunk_cubes (lines 474-526): flag cube assembly, OR
reduction over correlations, INVALID marking, and zeroing of flagged
data/model entries. -/

/-- Chunk geometry shared by the get_chunk_cubes family: the tile index
columns, the correlation count, the chunk rows, and the start of the
chunk frequency slice. -/
structure ChunkArgs where
  antea : Nat → Nat
  anteb : Nat → Nat
  times : Nat → Nat
  ncorr : Nat
  rows : List Nat
  f0 : Nat

/-- np.bitwise_or.reduce over the correlation axis of the flag cube: all
four correlations when the dataset carries four, else the diagonal
subsample flags[..., ::3] (slots 0 and 3). -/
def orReduceFlags (ncorr : Nat) (fcube : Nat → Nat → Nat → Nat → Nat → Nat) :
    Nat → Nat → Nat → Nat → Nat :=
  fun t f a b =>
    if ncorr = 4 then
      (((fcube t f a b 0).lor (fcube t f a b 1)).lor (fcube t f a b 2)).lor (fcube t f a b 3)
    else (fcube t f a b 0).lor (fcube t f a b 3)

/-- (~np.isfinite(x)).any over the reshaped 2x2 correlation block of a
cube cell; isFin is the finiteness predicate of the value model (exact
complex values are always finite, but the statement holds for any
predicate). -/
def anyCorrNotFin (isFin : Cplx → Bool) (g : Nat → Cplx) : Bool :=
  (List.range 4).any (fun c => !isFin (g c))

/-- The raw flag cube of get_chunk_cubes, OR-reduced: _column_to_cube on
the flags column with fill FL.MISSING (no conjugation: flag dtype is not
ctype), then reduced over correlations. -/
def chunkFlagsBase (A : ChunkArgs) (flagsCol : Nat → Nat → Nat → Nat) :
    Nat → Nat → Nat → Nat → Nat :=
  orReduceFlags A.ncorr
    (columnToCube A.antea A.anteb A.times A.ncorr A.rows A.f0 id FL.MISSING flagsCol)

/-- The observed-data cube of get_chunk_cubes (obvis through
_column_to_cube, complex dtype, fill 0). -/
def chunkObsCube (A : ChunkArgs) (obsCol : Nat → Nat → Nat → Cplx) :
    Nat → Nat → Nat → Nat → Nat → Cplx :=
  columnToCube A.antea A.anteb A.times A.ncorr A.rows A.f0 Cplx.conj 0 obsCol

/-- The model cube of get_chunk_cubes: _column_to_cube applied per
(direction, model) slice of movis, as the source loop over dirs and mods
does. -/
def chunkModCube (A : ChunkArgs) (mc : Nat → Nat → Nat → Nat → Nat → Cplx)
    (d m : Nat) : Nat → Nat → Nat → Nat → Nat → Cplx :=
  columnToCube A.antea A.anteb A.times A.ncorr A.rows A.f0 Cplx.conj 0 (mc d m)

/-- The reduced flag cube after the model INVALID pass: when a model is
present, positions with a non-finite value in the (0, 0) model slice
receive FL.INVALID. -/
def chunkFlagsMod (A : ChunkArgs) (flagsCol : Nat → Nat → Nat → Nat)
    (modCol : Option (Nat → Nat → Nat → Nat → Nat → Cplx)) (isFin : Cplx → Bool) :
    Nat → Nat → Nat → Nat → Nat :=
  fun t f a b =>
    match modCol with
    | some mc =>
      if anyCorrNotFin isFin (fun c => chunkModCube A mc 0 0 t f a b c)
      then (chunkFlagsBase A flagsCol t f a b).lor FL.INVALID
      else chunkFlagsBase A flagsCol t f a b
    | none => chunkFlagsBase A flagsCol t f a b

/-- The final reduced flag cube returned by get_chunk_cubes: the model
pass followed by the data INVALID pass on obvis. -/
def chunkFlags (A : ChunkArgs) (flagsCol : Nat → Nat → Nat → Nat)
    (modCol : Option (Nat → Nat → Nat → Nat → Nat → Cplx))
    (obsCol : Nat → Nat → Nat → Cplx) (isFin : Cplx → Bool) :
    Nat → Nat → Nat → Nat → Nat :=
  fun t f a b =>
    if anyCorrNotFin isFin (fun c => chunkObsCube A obsCol t f a b c)
    then (chunkFlagsMod A flagsCol modCol isFin t f a b).lor FL.INVALID
    else chunkFlagsMod A flagsCol modCol isFin t f a b

/-- The data cube returned by get_chunk_cubes: obs_arr with
obs_arr[flagged, :, :] = 0 applied. -/
def chunkObsOut (A : ChunkArgs) (flagsCol : Nat → Nat → Nat → Nat)
    (modCol : Option (Nat → Nat → Nat → Nat → Nat → Cplx))
    (obsCol : Nat → Nat → Nat → Cplx) (isFin : Cplx → Bool) :
    Nat → Nat → Nat → Nat → Nat → Cplx :=
  fun t f a b c =>
    if chunkFlags A flagsCol modCol obsCol isFin t f a b ≠ 0 then 0
    else chunkObsCube A obsCol t f a b c

/-- The model cube returned by get_chunk_cubes when a model is present:
mod_arr with mod_arr[0, 0, flagged, :, :] = 0 applied — only the first
direction and first model slice is zeroed by the source. -/
def chunkModOut (A : ChunkArgs) (flagsCol : Nat → Nat → Nat → Nat)
    (mc : Nat → Nat → Nat → Nat → Nat → Cplx)
    (obsCol : Nat → Nat → Nat → Cplx) (isFin : Cplx → Bool) :
    Nat → Nat → Nat → Nat → Nat → Nat → Nat → Cplx :=
  fun d m t f a b c =>
    if d = 0 ∧ m = 0 ∧ chunkFlags A flagsCol (some mc) obsCol isFin t f a b ≠ 0 then 0
    else chunkModCube A mc d m t f a b c

/-- C5 counterexample: with two model directions, a flagged position
(reduced flag nonzero) keeps its nonzero model value in direction 1:
the source zeroes only mod_arr[0, 0, flagged, :, :]. -/
def cexA : ChunkArgs := ⟨fun _ => 0, fun _ => 1, fun _ => 0, 4, [0], 0⟩

/-- Flags column of the C5 counterexample (row flagged). -/
def cexFlags : Nat → Nat → Nat → Nat := fun _ _ _ => 1

/-- Model column of the C5 counterexample: nonzero only in direction 1. -/
def cexMod : Nat → Nat → Nat → Nat → Nat → Cplx :=
  fun d _ _ _ _ => if d = 1 then ⟨1, 0⟩ else 0

/-- Observed column of the C5 counterexample. -/
def cexObs : Nat → Nat → Nat → Cplx := fun _ _ _ => 0

/-- C5 counterexample: the reduced flag at cube position (0,0,0,1) is
nonzero, yet the returned model cube entry at direction 1 there is
nonzero, refuting the claim that every (direction, model, correlation)
entry of the model cube is zeroed wherever the reduced flag is
nonzero. -/
theorem C5_counterexample :
    chunkFlags cexA cexFlags (some cexMod) cexObs (fun _ => true) 0 0 0 1 ≠ 0
    ∧ chunkModOut cexA cexFlags cexMod cexObs (fun _ => true) 1 0 0 0 0 1 0 ≠ 0 := by
  decide

/-- C5 (amended): wherever the reduced flag value is nonzero, every
correlation entry of the returned data cube is zero and every
correlation entry of the first-direction, first-model slice of the
returned model cube is zero (other direction/model slices are returned
as transposed, without zeroing). -/
theorem C5_flagged_zeroed (A : ChunkArgs) (flagsCol : Nat → Nat → Nat → Nat)
    (modCol : Option (Nat → Nat → Nat → Nat → Nat → Cplx))
    (obsCol : Nat → Nat → Nat → Cplx) (isFin : Cplx → Bool) (t f a b : Nat)
    (hfl : chunkFlags A flagsCol modCol obsCol isFin t f a b ≠ 0) :
    (∀ c, chunkObsOut A flagsCol modCol obsCol isFin t f a b c = 0)
    ∧ (∀ mc, modCol = some mc →
        ∀ c, chunkModOut A flagsCol mc obsCol isFin 0 0 t f a b c = 0) := by
  constructor
  · intro c
    unfold chunkObsOut
    rw [if_pos hfl]
  · intro mc hmc c
    unfold chunkModOut
    rw [if_pos ⟨rfl, rfl, by rw [← hmc]; exact hfl⟩]

/-- C5 witness: the zeroing theorem applied at the concrete flagged
position of the counterexample instance. -/
theorem C5_flagged_zeroed_witness :
    (∀ c, chunkObsOut cexA cexFlags (some cexMod) cexObs (fun _ => true) 0 0 0 1 c = 0)
    ∧ (∀ mc, (some cexMod) = some mc →
        ∀ c, chunkModOut cexA cexFlags mc cexObs (fun _ => true) 0 0 0 0 0 1 c = 0) :=
  C5_flagged_zeroed cexA cexFlags (some cexMod) cexObs (fun _ => true) 0 0 0 1 (by decide)

/-! The bitflag resolution block of Tile.load (lines 346-379), for the
case where some bitflag feature is requested and reinit-bitflags is off:
BITFLAG_ROW has been fetched (bflagrowRead), and the BITFLAG fetch
either returned a column or raised (bitflagColRead = none). -/

/-- Bitflag resolution of Tile.load on the outcome of the BITFLAG read:
on success the read column and row are kept and the updated flag is
untouched; on failure, if auto-fill is not configured the error is
re-raised (Except.error), otherwise BITFLAG and BITFLAG_ROW are
synthesized as zeros with the auto-fill mask written exactly where
FLAG / FLAG_ROW are set, and updated[1] is set to true. -/
def loadBitflags (flagcol : Nat → Nat → Nat → Bool) (flagrow : Nat → Bool)
    (bitflagColRead : Option (Nat → Nat → Nat → Nat)) (bflagrowRead : Nat → Nat)
    (autoFill : Nat) (updated1 : Bool) :
    Except Unit ((Nat → Nat → Nat → Nat) × (Nat → Nat) × Bool) :=
  match bitflagColRead with
  | some bcol => Except.ok (bcol, bflagrowRead, updated1)
  | none =>
    if autoFill = 0 then Except.error ()
    else
      Except.ok
        ((fun r f c => if flagcol r f c then autoFill else 0),
         (fun r => if flagrow r then autoFill else 0),
         true)

/-- C6: when the BITFLAG read fails, auto-fill configured (nonzero mask)
synthesizes the bitflag column/row with the mask exactly where the plain
flags are set and reports flags-updated true; with no auto-fill the
failure is re-raised. -/
theorem C6_bitflag_autofill (flagcol : Nat → Nat → Nat → Bool)
    (flagrow : Nat → Bool) (bflagrowRead : Nat → Nat) (autoFill : Nat)
    (updated1 : Bool) :
    (autoFill ≠ 0 →
      loadBitflags flagcol flagrow none bflagrowRead autoFill updated1 =
        Except.ok ((fun r f c => if flagcol r f c then autoFill else 0),
                   (fun r => if flagrow r then autoFill else 0), true))
    ∧ (autoFill = 0 →
      loadBitflags flagcol flagrow none bflagrowRead autoFill updated1 =
        Except.error ()) := by
  constructor
  · intro h
    unfold loadBitflags
    rw [if_neg h]
  · intro h
    unfold loadBitflags
    rw [if_pos h]

/-- Flag column of the C6 scenario: exactly row 0 is flagged. -/
def c6FlagCol : Nat → Nat → Nat → Bool := fun r _ _ => decide (r = 0)

/-- Flag row of the C6 scenario. -/
def c6FlagRow : Nat → Bool := fun r => decide (r = 0)

/-- C6 witness: the spec scenario with auto-fill bit mask 2 and one
previously flagged row; after the failed read, the synthesized bitflag
holds 2 exactly on that row and the updated indicator is true. -/
theorem C6_bitflag_autofill_witness :
    loadBitflags c6FlagCol c6FlagRow none (fun _ => 0) 2 false =
      Except.ok ((fun r f c => if c6FlagCol r f c then 2 else 0),
                 (fun r => if c6FlagRow r then 2 else 0), true) :=
  (C6_bitflag_autofill c6FlagCol c6FlagRow (fun _ => 0) 2 false).1 (by decide)

/-! The excess-row branch of Tile.prep_for_montblanc (lines 452-464). -/

/-- The value np.shape(x) compared against an int by the source: in
Python a tuple never equals an int, so the inequality test is true
regardless of the row counts. -/
inductive PyShape where
  | int : Nat → PyShape
  | tup : List Nat → PyShape
deriving DecidableEq

/-- Python != on the operands compared at line 461. -/
def pyNe (a b : PyShape) : Bool := decide (a ≠ b)

/-- The lexicographic key of np.lexsort((anteb, antea, time_col,
ddid_col)): primary key ddid, then time, then antenna A, then
antenna B. -/
def rowKey (antea anteb time_col ddid_col : Nat → Nat) (r : Nat) :
    Nat × Nat × Nat × Nat :=
  (ddid_col r, time_col r, antea r, anteb r)

/-- Lexicographic comparison of 4-component keys. -/
def key4LE (k1 k2 : Nat × Nat × Nat × Nat) : Prop :=
  k1.1 < k2.1 ∨ (k1.1 = k2.1 ∧ (k1.2.1 < k2.2.1 ∨ (k1.2.1 = k2.2.1 ∧
    (k1.2.2.1 < k2.2.2.1 ∨ (k1.2.2.1 = k2.2.2.1 ∧ k1.2.2.2 ≤ k2.2.2.2)))))

instance key4LE.instDecidable : DecidableRel key4LE := fun a b => by
  unfold key4LE
  infer_instance

/-- np.lexsort((anteb, antea, time_col, ddid_col)) over the tile rows:
the stable sort of row indices by their lexicographic key. -/
def lexsortRows (antea anteb time_col ddid_col : Nat → Nat) (nrows : Nat) :
    List Nat :=
  List.insertionSort
    (fun r1 r2 => key4LE (rowKey antea anteb time_col ddid_col r1)
      (rowKey antea anteb time_col ddid_col r2))
    (List.range nrows)

/-- The nrows > expected branch of prep_for_montblanc: sorts the rows,
drops the entries of sorted_ind at the positions where antea != anteb
(np.where evaluates the mask on the arrays in their original order), and
raises iff np.shape(sorted_ind) != expected_nrows — a tuple-to-int
comparison that is always unequal in Python. -/
def prepMontblancExcess (nants : Nat) (antea anteb time_col ddid_col : Nat → Nat)
    (nrows : Nat) (ddids : List Nat) : Except String (List Nat) :=
  let n_bl := nants * (nants - 1) / 2
  let ntime := (((List.range nrows).map time_col).dedup).length
  let expected := n_bl * ntime * ddids.length
  let sorted_ind := lexsortRows antea anteb time_col ddid_col nrows
  let keepPos := (List.range nrows).filter (fun r => decide (antea r ≠ anteb r))
  let kept := keepPos.map (fun p => sorted_ind.getD p 0)
  if pyNe (PyShape.tup [kept.length]) (PyShape.int expected) then
    Except.error "Number of rows inconsistent after removing auto-correlations."
  else Except.ok kept

/-- Antenna-A column of the C7 instance. -/
def c7Antea : Nat → Nat := fun _ => 0

/-- Antenna-B column of the C7 instance: row 0 is baseline (0, 1), row 1
is the autocorrelation (0, 0). -/
def c7Anteb : Nat → Nat := fun r => if r = 0 then 1 else 0

/-- C7: on a 2-antenna, 1-timeslot, 1-DDID tile with 2 rows, one of
which is an autocorrelation, dropping the autocorrelation restores
exactly the expected count (1 baseline x 1 timeslot x 1 DDID = 1), yet
prep_for_montblanc raises: np.shape(sorted_ind) is the tuple (1,), which
Python never considers equal to the int expected_nrows. -/
theorem C7_always_raises :
    prepMontblancExcess 2 c7Antea c7Anteb (fun _ => 7) (fun _ => 0) 2 [0]
        = Except.error "Number of rows inconsistent after removing auto-correlations."
    ∧ ((List.range 2).filter (fun r => decide (c7Antea r ≠ c7Anteb r))).length = 1
    ∧ 2 * (2 - 1) / 2 * (((List.range 2).map (fun _ => 7)).dedup).length
        * ([0] : List Nat).length = 1 :=
  ⟨rfl, by decide, by decide⟩

/-! Tile.set_chunk_cubes (lines 528-539). -/

/-- The per-tile shared store entries touched or carried by
set_chunk_cubes: the observed and corrected visibility columns, the
flags column, and the two updated indicators. -/
structure Store where
  obvis : Nat → Nat → Nat → Cplx
  covis : Nat → Nat → Nat → Cplx
  flags : Nat → Nat → Nat → Nat
  updated0 : Bool
  updated1 : Bool

/-- Tile.set_chunk_cubes: if a cube is given, set updated[0] and write it
into the target column (covis) at the chunk rows and frequency slice via
_cube_to_column; if a flag cube is given, set updated[1] and write it
into the flags column via the flag path.  none models an exception
propagating out of the numpy indexing. -/
def setChunkCubes (antea anteb times : Nat → Nat) (tdim ncorr : Nat)
    (rows : List Nat) (f0 f1 : Nat) (s : Store)
    (cube : Option (Nat → Nat → Nat → Nat → Nat → Cplx))
    (flagCube : Option (Nat → Nat → Nat → Nat → Nat)) : Option Store :=
  match cube with
  | none =>
    match flagCube with
    | none => some s
    | some fcb =>
      match flagCubeToColumn antea anteb times tdim rows f0 f1 s.flags fcb with
      | some fl2 => some { s with flags := fl2, updated1 := true }
      | none => none
  | some cb =>
    match cubeToColumn antea anteb times tdim ncorr rows f0 f1 s.covis cb with
    | none => none
    | some col2 =>
      match flagCube with
      | none => some { s with covis := col2, updated0 := true }
      | some fcb =>
        match flagCubeToColumn antea anteb times tdim rows f0 f1 s.flags fcb with
        | some fl2 =>
          some { s with covis := col2, updated0 := true, flags := fl2, updated1 := true }
        | none => none

theorem flagCubeToColumn_frame {antea anteb times : Nat → Nat} {tdim : Nat}
    {rows : List Nat} {f0 f1 : Nat} {column : Nat → Nat → Nat → Nat}
    {fcube : Nat → Nat → Nat → Nat → Nat} {g : Nat → Nat → Nat → Nat}
    (h : flagCubeToColumn antea anteb times tdim rows f0 f1 column fcube = some g)
    {r f c : Nat} (hout : ¬(r ∈ rows ∧ f0 ≤ f ∧ f < f1)) : g r f c = column r f c := by
  cases rows with
  | nil => exact Option.noConfusion h
  | cons r0 rest =>
    rw [show flagCubeToColumn antea anteb times tdim (r0 :: rest) f0 f1 column fcube
        = (if ((r0 :: rest).all
              (fun r => (wrapIdx tdim ((times r : Int) - (times r0 : Int))).isSome)) then
            some (fun r f c =>
              if r ∈ r0 :: rest ∧ f0 ≤ f ∧ f < f1 then
                match wrapIdx tdim ((times r : Int) - (times r0 : Int)) with
                | some ti => fcube ti (f - f0) (antea r) (anteb r)
                | none => column r f c
              else column r f c)
          else none) from rfl] at h
    split at h
    · obtain rfl : _ = g := Option.some.inj h
      exact if_neg hout
    · exact Option.noConfusion h

theorem cubeToColumn_frame {antea anteb times : Nat → Nat} {tdim ncorr : Nat}
    {rows : List Nat} {f0 f1 : Nat} {V : Type} {column : Nat → Nat → Nat → V}
    {cube : Nat → Nat → Nat → Nat → Nat → V} {g : Nat → Nat → Nat → V}
    (h : cubeToColumn antea anteb times tdim ncorr rows f0 f1 column cube = some g)
    {r f c : Nat} (hout : ¬(r ∈ rows ∧ f0 ≤ f ∧ f < f1)) : g r f c = column r f c := by
  cases rows with
  | nil => exact Option.noConfusion h
  | cons r0 rest =>
    rw [show cubeToColumn antea anteb times tdim ncorr (r0 :: rest) f0 f1 column cube
        = (if ((r0 :: rest).all
              (fun r => (wrapIdx tdim ((times r : Int) - (times r0 : Int))).isSome)) then
            some (fun r f c =>
              if r ∈ r0 :: rest ∧ f0 ≤ f ∧ f < f1 then
                match wrapIdx tdim ((times r : Int) - (times r0 : Int)),
                      corrGather ncorr c with
                | some ti, some cs => cube ti (f - f0) (antea r) (anteb r) cs
                | _, _ => column r f c
              else column r f c)
          else none) from rfl] at h
    split at h
    · obtain rfl : _ = g := Option.some.inj h
      exact if_neg hout
    · exact Option.noConfusion h

/-- C10: frame conditions of set_chunk_cubes.  With no flag cube the
flags entry and updated[1] are unchanged; with no data cube the target
column and updated[0] are unchanged; the other store entries (obvis) are
never touched; and the written arrays change only at the chunk rows and
chunk frequency slice. -/
theorem C10_frame (antea anteb times : Nat → Nat) (tdim ncorr : Nat)
    (rows : List Nat) (f0 f1 : Nat) (s : Store)
    (cube : Option (Nat → Nat → Nat → Nat → Nat → Cplx))
    (flagCube : Option (Nat → Nat → Nat → Nat → Nat)) (s2 : Store)
    (h : setChunkCubes antea anteb times tdim ncorr rows f0 f1 s cube flagCube = some s2) :
    (flagCube = none → s2.flags = s.flags ∧ s2.updated1 = s.updated1)
    ∧ (cube = none → s2.covis = s.covis ∧ s2.updated0 = s.updated0)
    ∧ s2.obvis = s.obvis
    ∧ (∀ r f c, ¬(r ∈ rows ∧ f0 ≤ f ∧ f < f1) →
        s2.covis r f c = s.covis r f c ∧ s2.flags r f c = s.flags r f c) := by
  rcases cube with _ | cb
  · rcases flagCube with _ | fcb
    · obtain rfl : s = s2 := Option.some.inj h
      exact ⟨fun _ => ⟨rfl, rfl⟩, fun _ => ⟨rfl, rfl⟩, rfl, fun _ _ _ _ => ⟨rfl, rfl⟩⟩
    · have h2 : (match flagCubeToColumn antea anteb times tdim rows f0 f1 s.flags fcb with
          | some fl2 => some { s with flags := fl2, updated1 := true }
          | none => none) = some s2 := h
      rcases hfc : flagCubeToColumn antea anteb times tdim rows f0 f1 s.flags fcb with _ | fl2
      · rw [hfc] at h2
        exact Option.noConfusion h2
      · rw [hfc] at h2
        obtain rfl : _ = s2 := Option.some.inj h2
        refine ⟨fun he => Option.noConfusion he, fun _ => ⟨rfl, rfl⟩, rfl,
          fun r f c hout => ?_⟩
        exact ⟨rfl, flagCubeToColumn_frame hfc hout⟩
  · rcases flagCube with _ | fcb
    · have h2 : (match cubeToColumn antea anteb times tdim ncorr rows f0 f1 s.covis cb with
          | none => none
          | some col2 => some { s with covis := col2, updated0 := true }) = some s2 := h
      rcases hcc : cubeToColumn antea anteb times tdim ncorr rows f0 f1 s.covis cb with _ | col2
      · rw [hcc] at h2
        exact Option.noConfusion h2
      · rw [hcc] at h2
        obtain rfl : _ = s2 := Option.some.inj h2
        refine ⟨fun _ => ⟨rfl, rfl⟩, fun he => Option.noConfusion he, rfl,
          fun r f c hout => ?_⟩
        exact ⟨cubeToColumn_frame hcc hout, rfl⟩
    · have h2 : (match cubeToColumn antea anteb times tdim ncorr rows f0 f1 s.covis cb with
          | none => none
          | some col2 =>
            match flagCubeToColumn antea anteb times tdim rows f0 f1 s.flags fcb with
            | some fl2 =>
              some { s with covis := col2, updated0 := true, flags := fl2, updated1 := true }
            | none => none) = some s2 := h
      rcases hcc : cubeToColumn antea anteb times tdim ncorr rows f0 f1 s.covis cb with _ | col2
      · rw [hcc] at h2
        exact Option.noConfusion h2
      · rw [hcc] at h2
        have h3 : (match flagCubeToColumn antea anteb times tdim rows f0 f1 s.flags fcb with
            | some fl2 =>
              some { s with covis := col2, updated0 := true, flags := fl2, updated1 := true }
            | none => none) = some s2 := h2
        rcases hfc : flagCubeToColumn antea anteb times tdim rows f0 f1 s.flags fcb with _ | fl2
        · rw [hfc] at h3
          exact Option.noConfusion h3
        · rw [hfc] at h3
          obtain rfl : _ = s2 := Option.some.inj h3
          refine ⟨fun he => Option.noConfusion he, fun he => Option.noConfusion he, rfl,
            fun r f c hout => ?_⟩
          exact ⟨cubeToColumn_frame hcc hout, flagCubeToColumn_frame hfc hout⟩

/-- Concrete store for the C10 witness. -/
def exStore : Store :=
  ⟨fun _ _ _ => ⟨7, 0⟩, fun _ _ _ => ⟨5, 0⟩, fun _ _ _ => 0, false, false⟩

/-- The C10 witness write: one-row chunk, flag cube only. -/
def exSet : Option Store :=
  setChunkCubes (fun _ => 0) (fun _ => 1) (fun _ => 0) 1 4 [0] 0 1 exStore
    none (some (fun _ _ _ _ => 3))

/-- The store produced by the witness write. -/
def exStore2 : Store := exSet.getD exStore

/-- C10 witness: the frame theorem applied to a concrete flag-only
write; the target column, updated[0], obvis, and out-of-chunk flag cells
are untouched. -/
theorem C10_frame_witness :
    exSet = some exStore2
    ∧ exStore2.covis = exStore.covis
    ∧ exStore2.updated0 = exStore.updated0
    ∧ exStore2.obvis = exStore.obvis
    ∧ exStore2.flags 5 0 0 = exStore.flags 5 0 0 := by
  have h : exSet = some exStore2 := rfl
  have frame := C10_frame (fun _ => 0) (fun _ => 1) (fun _ => 0) 1 4 [0] 0 1 exStore
    none (some (fun _ _ _ _ => 3)) exStore2 h
  exact ⟨h, (frame.2.1 rfl).1, (frame.2.1 rfl).2, frame.2.2.1,
    (frame.2.2.2 5 0 0 (by decide)).2⟩

/-! ReadModelHandler.define_chunk (lines 1049-1180): row-chunk creation
per (ddid, time chunk), sorting by first row, greedy tiling, and
coarsening. -/

/-- RowChunk: one DDID, one time-chunk index, and the dataset row
indices it covers. -/
structure RowChunkM where
  ddid : Nat
  tchunk : Nat
  rows : List Nat
deriving DecidableEq

/-- np.where(ddid_rowmask and timechunk_mask)[0]: the selected rows of
one DDID whose timeslot lies in [ts0, ts1), in ascending row order. -/
def rowsFor (ddid_col times : Nat → Nat) (nrows ddid ts0 ts1 : Nat) : List Nat :=
  (List.range nrows).filter
    (fun r => decide (ddid_col r = ddid ∧ ts0 ≤ times r ∧ times r < ts1))

/-- The row chunks of one DDID: for every time chunk
[timechunks[tc], timechunks[tc+1]), a RowChunk is created exactly when
at least one row matches. -/
def innerChunks (ddid_col times : Nat → Nat) (nrows : Nat) (timechunks : List Nat)
    (d : Nat) : List RowChunkM :=
  (List.range (timechunks.length - 1)).filterMap (fun tc =>
    if (rowsFor ddid_col times nrows d
        (timechunks.getD tc 0) (timechunks.getD (tc + 1) 0)).isEmpty then none
    else some ⟨d, tc, rowsFor ddid_col times nrows d
        (timechunks.getD tc 0) (timechunks.getD (tc + 1) 0)⟩)

/-- The row-chunk list of define_chunk (lines 1128-1140): the per-DDID
row chunks of every selected ddid, in DDID-major order. -/
def chunklistOf (ddid_col times : Nat → Nat) (nrows : Nat) (ddids : List Nat)
    (timechunks : List Nat) : List RowChunkM :=
  ddids.flatMap (innerChunks ddid_col times nrows timechunks)

/-- The comparison of the chunk sort (lines 1146-1148): by first dataset
row of each chunk. -/
def chunkLE (c1 c2 : RowChunkM) : Prop := c1.rows.headD 0 ≤ c2.rows.headD 0

instance chunkLE.instDecidable : DecidableRel chunkLE := fun c1 c2 => by
  unfold chunkLE
  infer_instance

instance chunkLE.instTotal : IsTotal RowChunkM chunkLE :=
  ⟨fun _ _ => Nat.le_total _ _⟩

instance chunkLE.instTrans : IsTrans RowChunkM chunkLE :=
  ⟨fun _ _ _ h1 h2 => Nat.le_trans h1 h2⟩

/-- Tile: its row chunks and its [first_row, last_row] dataset row
range. -/
structure TileM where
  rowchunks : List RowChunkM
  first_row : Nat
  last_row : Nat
deriving DecidableEq

/-- Tile.__init__ from a first row chunk. -/
def mkTile (c : RowChunkM) : TileM := ⟨[c], c.rows.headD 0, c.rows.getLastD 0⟩

/-- Tile.append: add a row chunk, widening the row range. -/
def tileAppendChunk (t : TileM) (c : RowChunkM) : TileM :=
  ⟨t.rowchunks ++ [c], min t.first_row (c.rows.headD 0),
    max t.last_row (c.rows.getLastD 0)⟩

/-- Tile.merge: concatenate row chunks, widening the row range. -/
def tileMerge (t u : TileM) : TileM :=
  ⟨t.rowchunks ++ u.rowchunks, min t.first_row u.first_row,
    max t.last_row u.last_row⟩

/-- One step of the greedy tiling loop (lines 1155-1162): start a new
tile when the next chunk's first row exceeds the current tile's last
row, else append the chunk to the current tile. -/
def buildStep (acc : List TileM) (c : RowChunkM) : List TileM :=
  match acc.getLast? with
  | none => acc ++ [mkTile c]
  | some t =>
    if c.rows.headD 0 > t.last_row then acc ++ [mkTile c]
    else acc.dropLast ++ [tileAppendChunk t c]

/-- The greedy tiling pass over the sorted chunk list. -/
def buildTiles (chunks : List RowChunkM) : List TileM := chunks.foldl buildStep []

/-- One step of the coarsening loop (lines 1168-1174): start a new
coarse tile when the current one already holds at least min_chunks_per_tile
(row-chunk x freq-chunk) chunks, else merge the next tile into it. -/
def coarsenStep (numFreqChunks minChunks : Nat) (acc : List TileM) (t : TileM) :
    List TileM :=
  match acc.getLast? with
  | none => acc ++ [t]
  | some u =>
    if u.rowchunks.length * numFreqChunks ≥ minChunks then acc ++ [t]
    else acc.dropLast ++ [tileMerge u t]

/-- The coarsening pass of define_chunk. -/
def coarsen (tiles : List TileM) (numFreqChunks minChunks : Nat) : List TileM :=
  tiles.foldl (coarsenStep numFreqChunks minChunks) []

/-- ReadModelHandler.define_chunk, no chunk_by columns: frequency chunk
boundaries chunk_find = range(0, nfreq, fdim) + [nfreq] and
num_freq_chunks = len(chunk_find) - 1; time chunk boundaries
range(0, times[-1], tdim) + [times[-1] + 1]; row chunks per
(ddid, time chunk); stable sort by first row; greedy tiling;
coarsening. -/
def defineChunk (ddid_col times : Nat → Nat) (nrows : Nat) (ddids : List Nat)
    (tdim nfreq fdim minChunks : Nat) : List TileM :=
  coarsen
    (buildTiles (List.insertionSort chunkLE
      (chunklistOf ddid_col times nrows ddids (timechunksOf (times (nrows - 1)) tdim))))
    ((pyRange 0 nfreq fdim ++ [nfreq]).length - 1) minChunks

/-- All dataset rows covered by the row chunks of a tile list. -/
def allTileRows (tiles : List TileM) : List Nat :=
  (tiles.flatMap (fun t => t.rowchunks)).flatMap (fun c => c.rows)

/-- C2 counterexample: a nonempty selection (one row, one timeslot)
yields an EMPTY tile list — the selected row 0 belongs to no RowChunk of
any Tile, because timechunks = range(0, times[-1] = 0, 1) + [1] = [1]
defines zero time chunks. -/
theorem C2_counterexample :
    defineChunk (fun _ => 0) (fun _ => 0) 1 [0] 1 1 1 1 = [] ∧ (0 : Nat) < 1 := by
  decide

/-- C9 counterexample: a selection producing a single tile with one row
chunk and one frequency chunk, coarsened with min_chunks_per_tile = 2:
the resulting (last) tile holds 1 x 1 = 1 < 2 chunks. -/
theorem C9_counterexample :
    (defineChunk (fun _ => 0) (fun r => r) 2 [0] 2 1 1 2).map
        (fun t => t.rowchunks.length) = [1]
    ∧ 1 * 1 < 2 := by decide

theorem getLast?_none_eq_nil {α : Type} {l : List α} (h : l.getLast? = none) :
    l = [] := by
  induction l using List.reverseRecOn with
  | nil => rfl
  | append_singleton l a ih => simp at h

theorem eq_dropLast_concat {α : Type} {l : List α} {t : α}
    (h : l.getLast? = some t) : l = l.dropLast ++ [t] := by
  induction l using List.reverseRecOn with
  | nil => simp at h
  | append_singleton l a ih =>
    simp at h
    subst h
    simp

/-- Invariant of the coarsening fold: every accumulated tile except the
last already holds at least minChunks combined chunks. -/
theorem coarsen_go_min (nf mc : Nat) :
    ∀ (l acc : List TileM),
      (∀ t ∈ acc.dropLast, mc ≤ t.rowchunks.length * nf) →
      ∀ t ∈ (l.foldl (coarsenStep nf mc) acc).dropLast,
        mc ≤ t.rowchunks.length * nf := by
  intro l
  induction l with
  | nil => exact fun acc hacc => hacc
  | cons u l2 ih =>
    intro acc hacc
    rw [List.foldl_cons]
    apply ih
    rcases hlast : acc.getLast? with _ | t0
    · obtain rfl : acc = [] := getLast?_none_eq_nil hlast
      intro t ht
      simp [coarsenStep] at ht
    · have hstep : coarsenStep nf mc acc u =
          (if t0.rowchunks.length * nf ≥ mc then acc ++ [u]
           else acc.dropLast ++ [tileMerge t0 u]) := by
        unfold coarsenStep
        rw [hlast]
      rw [hstep]
      by_cases hge : t0.rowchunks.length * nf ≥ mc
      · rw [if_pos hge]
        intro t ht
        rw [List.dropLast_concat] at ht
        rw [eq_dropLast_concat hlast] at ht
        rcases List.mem_append.mp ht with h1 | h2
        · exact hacc t h1
        · obtain rfl : t = t0 := by simpa using h2
          exact hge
      · rw [if_neg hge]
        intro t ht
        rw [List.dropLast_concat] at ht
        exact hacc t ht

/-- C9 (amended): after the coarsening step of define_chunk, every Tile
of the resulting list EXCEPT POSSIBLY THE LAST holds at least
min_chunks_per_tile combined (row-chunk x freq-chunk) chunks; the last
tile absorbs whatever remains and may stay below the threshold. -/
theorem C9_coarsen_min (tiles : List TileM) (nf mc : Nat) :
    ∀ t ∈ (coarsen tiles nf mc).dropLast, mc ≤ t.rowchunks.length * nf :=
  coarsen_go_min nf mc tiles [] (fun t ht => absurd ht (by simp))

/-- A full tile for the C9 witness. -/
def c9Tile1 : TileM := ⟨[⟨0, 0, [0]⟩, ⟨0, 1, [1]⟩], 0, 1⟩

/-- A trailing under-full tile for the C9 witness. -/
def c9Tile2 : TileM := ⟨[⟨1, 0, [2]⟩], 2, 2⟩

/-- C9 witness: the theorem applied to a concrete coarsened tile list
whose non-last tile holds 2 x 1 >= 2 chunks. -/
theorem C9_coarsen_min_witness : 2 ≤ c9Tile1.rowchunks.length * 1 :=
  C9_coarsen_min [c9Tile1, c9Tile2] 1 2 c9Tile1 (by decide)

/-! Counting utilities for the C2 partition proof. -/

theorem count_flatMap {α : Type} [DecidableEq α] (a : α) (l : List α)
    (f : α → List α) :
    (l.flatMap f).count a = (l.map (fun x => (f x).count a)).sum := by
  induction l with
  | nil => rfl
  | cons x t ih => simp [List.flatMap_cons, List.count_append, ih]

theorem count_flatMap_nat {α : Type} (a : Nat) (l : List α) (f : α → List Nat) :
    (l.flatMap f).count a = (l.map (fun x => (f x).count a)).sum := by
  induction l with
  | nil => rfl
  | cons x t ih => simp [List.flatMap_cons, List.count_append, ih]

theorem count_filter_ite {l : List Nat} {p : Nat → Bool} {a : Nat} :
    (l.filter p).count a = if p a then l.count a else 0 := by
  induction l with
  | nil => simp
  | cons x t ih =>
    by_cases hx : p x = true
    · rw [List.filter_cons_of_pos hx]
      by_cases hax : x = a
      · subst hax
        simp [List.count_cons_self, ih, hx]
      · rw [List.count_cons_of_ne (fun hc => hax hc.symm), ih,
          List.count_cons_of_ne (fun hc => hax hc.symm)]
    · rw [List.filter_cons_of_neg hx]
      by_cases hax : x = a
      · subst hax
        rw [ih, List.count_cons_self]
        split
        · simp_all
        · rfl
      · rw [ih, List.count_cons_of_ne (fun hc => hax hc.symm)]

theorem count_range_ite (n a : Nat) :
    (List.range n).count a = if a < n then 1 else 0 := by
  split
  · exact List.count_eq_one_of_mem (List.nodup_range n) (List.mem_range.mpr (by assumption))
  · exact List.count_eq_zero_of_not_mem (by simp; omega)

/-- Row count of r inside one rowsFor selection. -/
theorem count_rowsFor (ddid_col times : Nat → Nat) (nrows d ts0 ts1 r : Nat) :
    (rowsFor ddid_col times nrows d ts0 ts1).count r
      = if r < nrows ∧ ddid_col r = d ∧ ts0 ≤ times r ∧ times r < ts1 then 1 else 0 := by
  unfold rowsFor
  rw [count_filter_ite, count_range_ite]
  by_cases h1 : ddid_col r = d ∧ ts0 ≤ times r ∧ times r < ts1
  · rw [if_pos (by simpa using h1)]
    by_cases h2 : r < nrows
    · rw [if_pos h2, if_pos ⟨h2, h1⟩]
    · rw [if_neg h2, if_neg (fun hc => h2 hc.1)]
  · rw [if_neg (by simpa using h1), if_neg (fun hc => h1 hc.2)]

theorem sum_map_ite_one (a : Nat) (l : List Nat) (g : Nat → Nat)
    (hg : ∀ d ∈ l, g d = if a = d then 1 else 0) :
    (l.map g).sum = l.count a := by
  induction l with
  | nil => rfl
  | cons d t ih =>
    rw [List.map_cons, List.sum_cons, ih (fun x hx => hg x (by simp [hx]))]
    rw [hg d (by simp)]
    by_cases had : a = d
    · subst had
      rw [if_pos rfl, List.count_cons_self]
      omega
    · rw [if_neg had, List.count_cons_of_ne had]
      omega

/-! Interval lemmas: the consecutive boundary pairs of a strictly
increasing boundary list cover each value in range exactly once. -/

/-- The (boundary, next boundary) pairs scanned by the time-chunk loop,
expressed through positional indexing as the source does. -/
theorem map_range_pairs (bs : List Nat) :
    (List.range (bs.length - 1)).map (fun i => (bs.getD i 0, bs.getD (i + 1) 0))
      = bs.zip bs.tail := by
  induction bs with
  | nil => rfl
  | cons a t ih =>
    cases t with
    | nil => rfl
    | cons b t2 =>
      show (List.range (t2.length + 1)).map
          (fun i => ((a :: b :: t2).getD i 0, (a :: b :: t2).getD (i + 1) 0))
        = (a, b) :: (b :: t2).zip t2
      rw [List.range_succ_eq_map, List.map_cons, List.map_map]
      congr 1

theorem sum_intervals_zero (bs : List Nat) (ts : Nat) (hlt : ∀ x ∈ bs, ts < x) :
    ((bs.zip bs.tail).map (fun p => if p.1 ≤ ts ∧ ts < p.2 then 1 else 0)).sum = 0 := by
  induction bs with
  | nil => rfl
  | cons a t ih =>
    cases t with
    | nil => rfl
    | cons b t2 =>
      show (if a ≤ ts ∧ ts < b then 1 else 0)
          + (((b :: t2).zip t2).map (fun p => if p.1 ≤ ts ∧ ts < p.2 then 1 else 0)).sum = 0
      rw [if_neg (fun hc => absurd (hlt a (by simp)) (by omega))]
      have h := ih (fun x hx => hlt x (by simp [hx]))
      simp only [List.tail_cons] at h
      omega

theorem chain'_head_le {b : Nat} {t : List Nat}
    (hchain : List.Chain' (· < ·) (b :: t)) : ∀ x ∈ b :: t, b ≤ x := by
  induction t generalizing b with
  | nil => intro x hx; simp at hx; omega
  | cons c t2 ih =>
    intro x hx
    rcases List.mem_cons.mp hx with h1 | h2
    · omega
    · have hbc : b < c := (List.chain'_cons.mp hchain).1
      have := ih (List.chain'_cons.mp hchain).2 x h2
      omega

theorem sum_intervals_one (bs : List Nat) (ts : Nat)
    (hchain : List.Chain' (· < ·) bs) (hne : bs ≠ [])
    (hlo : bs.headD 0 ≤ ts) (hhi : ts < bs.getLastD 0) :
    ((bs.zip bs.tail).map (fun p => if p.1 ≤ ts ∧ ts < p.2 then 1 else 0)).sum = 1 := by
  induction bs with
  | nil => exact absurd rfl hne
  | cons a t ih =>
    cases t with
    | nil =>
      exfalso
      have h1 : (([] : List Nat).getLastD a) = a := rfl
      simp only [List.headD] at hlo
      have h2 : (a :: ([] : List Nat)).getLastD 0 = a := rfl
      omega
    | cons b t2 =>
      show (if a ≤ ts ∧ ts < b then 1 else 0)
          + (((b :: t2).zip t2).map (fun p => if p.1 ≤ ts ∧ ts < p.2 then 1 else 0)).sum = 1
      obtain ⟨hab, hchain2⟩ := List.chain'_cons.mp hchain
      by_cases hb : ts < b
      · rw [if_pos ⟨by simpa using hlo, hb⟩]
        have h := sum_intervals_zero (b :: t2) ts
          (fun x hx => lt_of_lt_of_le hb (chain'_head_le hchain2 x hx))
        simp only [List.tail_cons] at h
        omega
      · rw [if_neg (fun hc => hb hc.2)]
        have h := ih hchain2 (by simp) (by simp; omega) (by simpa using hhi)
        simp only [List.tail_cons] at h
        omega

theorem flatMap_flatMap_assoc {α β γ : Type} (l : List α) (f : α → List β)
    (g : β → List γ) :
    (l.flatMap f).flatMap g = l.flatMap (fun x => (f x).flatMap g) := by
  induction l with
  | nil => rfl
  | cons x t ih => simp [List.flatMap_cons, List.flatMap_append, ih]

/-- Row count of r over the row chunks of one DDID: dropping the empty
time-chunk selections does not change the covered rows. -/
theorem count_innerChunks (ddid_col times : Nat → Nat) (nrows : Nat) (tcs : List Nat)
    (d r : Nat) :
    ((innerChunks ddid_col times nrows tcs d).flatMap (fun c => c.rows)).count r
      = ((List.range (tcs.length - 1)).map (fun tc =>
          (rowsFor ddid_col times nrows d
            (tcs.getD tc 0) (tcs.getD (tc + 1) 0)).count r)).sum := by
  unfold innerChunks
  generalize List.range (tcs.length - 1) = l
  induction l with
  | nil => rfl
  | cons tc t ih =>
    rw [List.filterMap_cons, List.map_cons, List.sum_cons]
    by_cases he : (rowsFor ddid_col times nrows d
        (tcs.getD tc 0) (tcs.getD (tc + 1) 0)).isEmpty
    · rw [if_pos he, ih, List.isEmpty_iff.mp he]
      simp
    · rw [if_neg he, List.flatMap_cons, List.count_append, ih]

/-- Every row chunk of innerChunks carries its ddid, its rows are
exactly the rowsFor selection of its time chunk, and they are
nonempty. -/
theorem innerChunks_sound {ddid_col times : Nat → Nat} {nrows : Nat}
    {tcs : List Nat} {d : Nat} {c : RowChunkM}
    (hc : c ∈ innerChunks ddid_col times nrows tcs d) :
    c.ddid = d
    ∧ c.rows = rowsFor ddid_col times nrows d
        (tcs.getD c.tchunk 0) (tcs.getD (c.tchunk + 1) 0)
    ∧ c.rows ≠ [] := by
  obtain ⟨tc, htc, hsome⟩ := List.mem_filterMap.mp hc
  by_cases he : (rowsFor ddid_col times nrows d
      (tcs.getD tc 0) (tcs.getD (tc + 1) 0)).isEmpty
  · rw [if_pos he] at hsome
    exact Option.noConfusion hsome
  · rw [if_neg he] at hsome
    obtain rfl := (Option.some.inj hsome).symm
    exact ⟨rfl, rfl, fun hnil => he (List.isEmpty_iff.mpr hnil)⟩

/-- Every row covered by the chunk list is a selected row. -/
theorem chunklist_mem_lt (ddid_col times : Nat → Nat) (nrows : Nat)
    (ddids : List Nat) (tcs : List Nat) :
    ∀ x ∈ (chunklistOf ddid_col times nrows ddids tcs).flatMap (fun c => c.rows),
      x < nrows := by
  intro x hx
  obtain ⟨c, hc, hxc⟩ := List.mem_flatMap.mp hx
  obtain ⟨d, hd, hcin⟩ := List.mem_flatMap.mp hc
  obtain ⟨_, hrows, _⟩ := innerChunks_sound hcin
  rw [hrows] at hxc
  exact List.mem_range.mp (List.mem_of_mem_filter hxc)

/-! Structure of the time-chunk boundary list. -/

theorem pyRange_zero_lt (T tdim : Nat) (htd : 0 < tdim) :
    ∀ x ∈ pyRange 0 T tdim, x < T + 1 := by
  intro x hx
  unfold pyRange at hx
  obtain ⟨i, hi, rfl⟩ := List.mem_map.mp hx
  have hik : i + 1 ≤ (T - 0 + tdim - 1) / tdim := List.mem_range.mp hi
  have h1 : ((T - 0 + tdim - 1) / tdim) * tdim ≤ T - 0 + tdim - 1 :=
    Nat.div_mul_le_self _ _
  have h2 : (i + 1) * tdim ≤ ((T - 0 + tdim - 1) / tdim) * tdim :=
    Nat.mul_le_mul_right tdim hik
  have h3 : (i + 1) * tdim = i * tdim + tdim := Nat.succ_mul i tdim
  omega

theorem timechunksOf_chain (T tdim : Nat) (htd : 0 < tdim) :
    List.Chain' (· < ·) (timechunksOf T tdim) := by
  apply List.Pairwise.chain'
  unfold timechunksOf
  rw [List.pairwise_append]
  refine ⟨?_, by simp, ?_⟩
  · unfold pyRange
    refine List.Pairwise.map _ (fun a b hab => ?_) (List.pairwise_lt_range _)
    have : a * tdim < b * tdim := by
      have hle : a + 1 ≤ b := hab
      calc a * tdim < a * tdim + tdim := by omega
        _ = (a + 1) * tdim := (Nat.succ_mul a tdim).symm
        _ ≤ b * tdim := Nat.mul_le_mul_right tdim hle
    omega
  · intro a ha b hb
    have hb1 : b = T + 1 := by simpa using hb
    subst hb1
    exact pyRange_zero_lt T tdim htd a ha

theorem timechunksOf_headD (T tdim : Nat) (hT : 1 ≤ T) (htd : 0 < tdim) :
    (timechunksOf T tdim).headD 0 = 0 := by
  unfold timechunksOf pyRange
  have hk : 1 ≤ (T - 0 + tdim - 1) / tdim := by
    rw [Nat.one_le_div_iff htd]
    omega
  obtain ⟨m, hm⟩ : ∃ m, (T - 0 + tdim - 1) / tdim = m + 1 :=
    ⟨(T - 0 + tdim - 1) / tdim - 1, by omega⟩
  rw [hm, List.range_succ_eq_map]
  simp

theorem timechunksOf_getLastD (T tdim : Nat) :
    (timechunksOf T tdim).getLastD 0 = T + 1 := by
  simp [timechunksOf, List.getLastD_eq_getLast?, List.getLast?_append]

/-- Every selected row is covered by exactly one row chunk of the chunk
list, provided the boundary list is strictly increasing, the ddid list
has no duplicates, and the row's ddid and timeslot are in range. -/
theorem chunklist_count (ddid_col times : Nat → Nat) (nrows : Nat) (ddids : List Nat)
    (tcs : List Nat) (hdd : ddids.Nodup) (r : Nat) (hr : r < nrows)
    (hmem : ddid_col r ∈ ddids)
    (hchain : List.Chain' (· < ·) tcs) (hne : tcs ≠ [])
    (hlo : tcs.headD 0 ≤ times r) (hhi : times r < tcs.getLastD 0) :
    ((chunklistOf ddid_col times nrows ddids tcs).flatMap (fun c => c.rows)).count r
      = 1 := by
  unfold chunklistOf
  rw [flatMap_flatMap_assoc, count_flatMap_nat]
  have hg : ∀ d ∈ ddids,
      ((innerChunks ddid_col times nrows tcs d).flatMap (fun c => c.rows)).count r
        = if ddid_col r = d then 1 else 0 := by
    intro d hd
    rw [count_innerChunks]
    by_cases hdr : ddid_col r = d
    · subst hdr
      rw [if_pos rfl]
      have hmap : (List.range (tcs.length - 1)).map (fun tc =>
            (rowsFor ddid_col times nrows (ddid_col r)
              (tcs.getD tc 0) (tcs.getD (tc + 1) 0)).count r)
          = (List.range (tcs.length - 1)).map (fun tc =>
            if tcs.getD tc 0 ≤ times r ∧ times r < tcs.getD (tc + 1) 0
            then 1 else 0) := by
        apply List.map_congr_left
        intro tc _
        rw [count_rowsFor]
        by_cases hI : tcs.getD tc 0 ≤ times r ∧ times r < tcs.getD (tc + 1) 0
        · rw [if_pos ⟨hr, rfl, hI⟩, if_pos hI]
        · rw [if_neg (fun hc => hI hc.2.2), if_neg hI]
      rw [hmap]
      have h1 := sum_intervals_one tcs (times r) hchain hne hlo hhi
      rw [← map_range_pairs tcs, List.map_map] at h1
      exact h1
    · rw [if_neg hdr]
      apply List.sum_eq_zero
      intro x hx
      obtain ⟨tc, _, rfl⟩ := List.mem_map.mp hx
      rw [count_rowsFor]
      exact if_neg (fun hc => hdr hc.2.1)
  rw [sum_map_ite_one (ddid_col r) ddids _ hg]
  exact List.count_eq_one_of_mem hdd hmem

theorem getLastD_mem {l : List Nat} (hne : l ≠ []) : l.getLastD 0 ∈ l := by
  induction l with
  | nil => exact absurd rfl hne
  | cons a t ih =>
    cases t with
    | nil => simp
    | cons b t2 =>
      have h : (a :: b :: t2).getLastD 0 = (b :: t2).getLastD 0 := rfl
      rw [h]
      exact List.mem_cons_of_mem a (ih (by simp))

theorem headD_le_of_sorted {l : List Nat} (hp : List.Pairwise (· < ·) l)
    {x : Nat} (hx : x ∈ l) : l.headD 0 ≤ x := by
  cases l with
  | nil => simp at hx
  | cons a t =>
    show a ≤ x
    rcases List.mem_cons.mp hx with h1 | h2
    · omega
    · have h3 := (List.pairwise_cons.mp hp).1 x h2
      omega

theorem rowsFor_sorted (ddid_col times : Nat → Nat) (nrows d ts0 ts1 : Nat) :
    List.Pairwise (· < ·) (rowsFor ddid_col times nrows d ts0 ts1) :=
  List.Pairwise.filter _ (List.pairwise_lt_range nrows)

/-- Every chunk of the chunk list is nonempty with its first row at most
its last row. -/
theorem chunk_head_le_getLast {ddid_col times : Nat → Nat} {nrows : Nat}
    {ddids tcs : List Nat} {c : RowChunkM}
    (hc : c ∈ chunklistOf ddid_col times nrows ddids tcs) :
    c.rows ≠ [] ∧ c.rows.headD 0 ≤ c.rows.getLastD 0 := by
  obtain ⟨d, hd, hcin⟩ := List.mem_flatMap.mp hc
  obtain ⟨_, hrows, hne⟩ := innerChunks_sound hcin
  refine ⟨hne, ?_⟩
  have hsorted : List.Pairwise (· < ·) c.rows := by
    rw [hrows]
    exact rowsFor_sorted ddid_col times nrows d _ _
  exact headD_le_of_sorted hsorted (getLastD_mem hne)

/-! The two tiling passes only regroup the row chunks: flattening the
tile list returns exactly the input chunk list. -/

theorem buildTiles_go_flat :
    ∀ (l : List RowChunkM) (acc : List TileM),
      ((l.foldl buildStep acc).flatMap (fun t => t.rowchunks))
        = acc.flatMap (fun t => t.rowchunks) ++ l := by
  intro l
  induction l with
  | nil => intro acc; simp
  | cons c l2 ih =>
    intro acc
    have hstep : (buildStep acc c).flatMap (fun t => t.rowchunks)
        = acc.flatMap (fun t => t.rowchunks) ++ [c] := by
      rcases hlast : acc.getLast? with _ | t0
      · obtain rfl : acc = [] := getLast?_none_eq_nil hlast
        simp [buildStep, mkTile]
      · have hs : buildStep acc c = (if c.rows.headD 0 > t0.last_row
            then acc ++ [mkTile c] else acc.dropLast ++ [tileAppendChunk t0 c]) := by
          unfold buildStep
          rw [hlast]
        rw [hs]
        by_cases hgt : c.rows.headD 0 > t0.last_row
        · rw [if_pos hgt]
          simp [mkTile]
        · rw [if_neg hgt]
          conv_rhs => rw [eq_dropLast_concat hlast]
          simp [tileAppendChunk]
    rw [List.foldl_cons, ih (buildStep acc c), hstep]
    simp

theorem buildTiles_flat (chunks : List RowChunkM) :
    (buildTiles chunks).flatMap (fun t => t.rowchunks) = chunks := by
  unfold buildTiles
  rw [buildTiles_go_flat]
  rfl

theorem coarsen_go_flat (nf mc : Nat) :
    ∀ (l acc : List TileM),
      ((l.foldl (coarsenStep nf mc) acc).flatMap (fun t => t.rowchunks))
        = acc.flatMap (fun t => t.rowchunks) ++ l.flatMap (fun t => t.rowchunks) := by
  intro l
  induction l with
  | nil => intro acc; simp
  | cons u l2 ih =>
    intro acc
    have hstep : (coarsenStep nf mc acc u).flatMap (fun t => t.rowchunks)
        = acc.flatMap (fun t => t.rowchunks) ++ u.rowchunks := by
      rcases hlast : acc.getLast? with _ | t0
      · obtain rfl : acc = [] := getLast?_none_eq_nil hlast
        simp [coarsenStep]
      · have hs : coarsenStep nf mc acc u = (if t0.rowchunks.length * nf ≥ mc
            then acc ++ [u] else acc.dropLast ++ [tileMerge t0 u]) := by
          unfold coarsenStep
          rw [hlast]
        rw [hs]
        by_cases hge : t0.rowchunks.length * nf ≥ mc
        · rw [if_pos hge]
          simp
        · rw [if_neg hge]
          conv_rhs => rw [eq_dropLast_concat hlast]
          simp [tileMerge]
    rw [List.foldl_cons, ih (coarsenStep nf mc acc u), hstep]
    simp

theorem coarsen_flat (tiles : List TileM) (nf mc : Nat) :
    (coarsen tiles nf mc).flatMap (fun t => t.rowchunks)
      = tiles.flatMap (fun t => t.rowchunks) := by
  unfold coarsen
  rw [coarsen_go_flat]
  rfl

/-! Ordering invariant of the greedy tiling pass: processing chunks in
ascending first-row order yields tiles with pairwise ordered, disjoint
[first_row, last_row] ranges. -/

theorem buildTiles_go_ordered :
    ∀ (l : List RowChunkM) (acc : List TileM),
      List.Pairwise (fun t u => t.last_row < u.first_row) acc →
      (∀ t ∈ acc, t.first_row ≤ t.last_row) →
      (∀ c ∈ l, c.rows.headD 0 ≤ c.rows.getLastD 0) →
      List.Pairwise chunkLE l →
      (∀ t0, acc.getLast? = some t0 → ∀ c ∈ l, t0.first_row ≤ c.rows.headD 0) →
      List.Pairwise (fun t u => t.last_row < u.first_row) (l.foldl buildStep acc)
        ∧ (∀ t ∈ l.foldl buildStep acc, t.first_row ≤ t.last_row) := by
  intro l
  induction l with
  | nil =>
    intro acc h1 h2 _ _ _
    exact ⟨h1, h2⟩
  | cons c l2 ih =>
    intro acc hpw hwf hcwf hcle hlastc
    rw [List.foldl_cons]
    obtain ⟨hcle1, hcle2⟩ := List.pairwise_cons.mp hcle
    rcases hlast : acc.getLast? with _ | t0
    · obtain rfl : acc = [] := getLast?_none_eq_nil hlast
      have hstep : buildStep [] c = [mkTile c] := rfl
      rw [hstep]
      apply ih
      · exact List.pairwise_singleton _ _
      · intro t ht
        obtain rfl : t = mkTile c := by simpa using ht
        exact hcwf c (by simp)
      · intro x hx
        exact hcwf x (by simp [hx])
      · exact hcle2
      · intro t1 ht1 x hx
        obtain rfl : mkTile c = t1 := by simpa using ht1
        exact hcle1 x hx
    · have hs : buildStep acc c = (if c.rows.headD 0 > t0.last_row
          then acc ++ [mkTile c] else acc.dropLast ++ [tileAppendChunk t0 c]) := by
        unfold buildStep
        rw [hlast]
      have hacc : acc = acc.dropLast ++ [t0] := eq_dropLast_concat hlast
      have hpw2 : List.Pairwise (fun t u => t.last_row < u.first_row)
          (acc.dropLast ++ [t0]) := hacc ▸ hpw
      obtain ⟨hpwD, _, hcross⟩ := List.pairwise_append.mp hpw2
      have ht0wf : t0.first_row ≤ t0.last_row := hwf t0 (by rw [hacc]; simp)
      have hcfirst : t0.first_row ≤ c.rows.headD 0 := hlastc t0 hlast c (by simp)
      rw [hs]
      by_cases hgt : c.rows.headD 0 > t0.last_row
      · rw [if_pos hgt]
        apply ih
        · rw [List.pairwise_append]
          refine ⟨hpw, List.pairwise_singleton _ _, ?_⟩
          intro u hu v hv
          obtain rfl : v = mkTile c := by simpa using hv
          show u.last_row < c.rows.headD 0
          rw [hacc] at hu
          rcases List.mem_append.mp hu with h1 | h2
          · have := hcross u h1 t0 (by simp)
            omega
          · obtain rfl : u = t0 := by simpa using h2
            omega
        · intro t ht
          rcases List.mem_append.mp ht with h1 | h2
          · exact hwf t h1
          · obtain rfl : t = mkTile c := by simpa using h2
            exact hcwf c (by simp)
        · intro x hx
          exact hcwf x (by simp [hx])
        · exact hcle2
        · intro t1 ht1 x hx
          rw [List.getLast?_concat] at ht1
          obtain rfl : t1 = mkTile c := (Option.some.inj ht1).symm
          exact hcle1 x hx
      · rw [if_neg hgt]
        apply ih
        · rw [List.pairwise_append]
          refine ⟨hpwD, List.pairwise_singleton _ _, ?_⟩
          intro u hu v hv
          obtain rfl : v = tileAppendChunk t0 c := by simpa using hv
          show u.last_row < min t0.first_row (c.rows.headD 0)
          have h1 := hcross u hu t0 (by simp)
          omega
        · intro t ht
          rcases List.mem_append.mp ht with h1 | h2
          · exact hwf t (by rw [hacc]; exact List.mem_append.mpr (Or.inl h1))
          · obtain rfl : t = tileAppendChunk t0 c := by simpa using h2
            show min t0.first_row (c.rows.headD 0)
              ≤ max t0.last_row (c.rows.getLastD 0)
            omega
        · intro x hx
          exact hcwf x (by simp [hx])
        · exact hcle2
        · intro t1 ht1 x hx
          rw [List.getLast?_concat] at ht1
          obtain rfl : t1 = tileAppendChunk t0 c := (Option.some.inj ht1).symm
          show min t0.first_row (c.rows.headD 0) ≤ x.rows.headD 0
          have h1 : c.rows.headD 0 ≤ x.rows.headD 0 := hcle1 x hx
          omega

/-- Ordering invariant of the coarsening pass: merging consecutive
ordered tiles keeps the ranges pairwise ordered and disjoint. -/
theorem coarsen_go_ordered (nf mc : Nat) :
    ∀ (l acc : List TileM),
      List.Pairwise (fun t u => t.last_row < u.first_row) acc →
      (∀ t ∈ acc, t.first_row ≤ t.last_row) →
      List.Pairwise (fun t u => t.last_row < u.first_row) l →
      (∀ t ∈ l, t.first_row ≤ t.last_row) →
      (∀ u ∈ l, ∀ t ∈ acc, t.last_row < u.first_row) →
      List.Pairwise (fun t u => t.last_row < u.first_row)
        (l.foldl (coarsenStep nf mc) acc) := by
  intro l
  induction l with
  | nil =>
    intro acc h1 _ _ _ _
    exact h1
  | cons u0 l2 ih =>
    intro acc hpwA hwfA hpwL hwfL hcross
    rw [List.foldl_cons]
    obtain ⟨hu1, hpwL2⟩ := List.pairwise_cons.mp hpwL
    rcases hlast : acc.getLast? with _ | t0
    · obtain rfl : acc = [] := getLast?_none_eq_nil hlast
      have hstep : coarsenStep nf mc [] u0 = [u0] := rfl
      rw [hstep]
      apply ih
      · exact List.pairwise_singleton _ _
      · intro t ht
        have ht2 : t = u0 := by simpa using ht
        rw [ht2]
        exact hwfL u0 (by simp)
      · exact hpwL2
      · intro t ht
        exact hwfL t (by simp [ht])
      · intro v hv t ht
        have ht2 : t = u0 := by simpa using ht
        rw [ht2]
        exact hu1 v hv
    · have hs : coarsenStep nf mc acc u0 = (if t0.rowchunks.length * nf ≥ mc
          then acc ++ [u0] else acc.dropLast ++ [tileMerge t0 u0]) := by
        unfold coarsenStep
        rw [hlast]
      have hacc : acc = acc.dropLast ++ [t0] := eq_dropLast_concat hlast
      have hpw2 : List.Pairwise (fun t u => t.last_row < u.first_row)
          (acc.dropLast ++ [t0]) := hacc ▸ hpwA
      obtain ⟨hpwD, _, hcrossD⟩ := List.pairwise_append.mp hpw2
      have ht0mem : t0 ∈ acc := by rw [hacc]; simp
      rw [hs]
      by_cases hge : t0.rowchunks.length * nf ≥ mc
      · rw [if_pos hge]
        apply ih
        · rw [List.pairwise_append]
          refine ⟨hpwA, List.pairwise_singleton _ _, ?_⟩
          intro a ha v hv
          have hv2 : v = u0 := by simpa using hv
          rw [hv2]
          exact hcross u0 (by simp) a ha
        · intro t ht
          rcases List.mem_append.mp ht with h1 | h2
          · exact hwfA t h1
          · have ht2 : t = u0 := by simpa using h2
            rw [ht2]
            exact hwfL u0 (by simp)
        · exact hpwL2
        · intro t ht
          exact hwfL t (by simp [ht])
        · intro v hv t ht
          rcases List.mem_append.mp ht with h1 | h2
          · exact hcross v (by simp [hv]) t h1
          · have ht2 : t = u0 := by simpa using h2
            rw [ht2]
            exact hu1 v hv
      · rw [if_neg hge]
        apply ih
        · rw [List.pairwise_append]
          refine ⟨hpwD, List.pairwise_singleton _ _, ?_⟩
          intro a ha v hv
          obtain rfl : v = tileMerge t0 u0 := by simpa using hv
          show a.last_row < min t0.first_row u0.first_row
          have h1 := hcrossD a ha t0 (by simp)
          have h2 : a.last_row < u0.first_row :=
            hcross u0 (by simp) a (by rw [hacc]; exact List.mem_append.mpr (Or.inl ha))
          omega
        · intro t ht
          rcases List.mem_append.mp ht with h1 | h2
          · exact hwfA t (by rw [hacc]; exact List.mem_append.mpr (Or.inl h1))
          · obtain rfl : t = tileMerge t0 u0 := by simpa using h2
            show min t0.first_row u0.first_row ≤ max t0.last_row u0.last_row
            have h1 := hwfA t0 ht0mem
            omega
        · exact hpwL2
        · intro t ht
          exact hwfL t (by simp [ht])
        · intro v hv t ht
          rcases List.mem_append.mp ht with h1 | h2
          · exact hcross v (by simp [hv]) t
              (by rw [hacc]; exact List.mem_append.mpr (Or.inl h1))
          · obtain rfl : t = tileMerge t0 u0 := by simpa using h2
            show max t0.last_row u0.last_row < v.first_row
            have hA := hcross v (by simp [hv]) t0 ht0mem
            have hB : u0.last_row < v.first_row := hu1 v hv
            omega

theorem buildTiles_ordered (chunks : List RowChunkM)
    (hcwf : ∀ c ∈ chunks, c.rows.headD 0 ≤ c.rows.getLastD 0)
    (hcle : List.Pairwise chunkLE chunks) :
    List.Pairwise (fun t u => t.last_row < u.first_row) (buildTiles chunks)
      ∧ ∀ t ∈ buildTiles chunks, t.first_row ≤ t.last_row := by
  unfold buildTiles
  exact buildTiles_go_ordered chunks [] List.Pairwise.nil (by simp) hcwf hcle
    (fun t0 ht0 => Option.noConfusion ht0)

/-- C2 (amended): for every Tile set produced by define_chunk on a
nonempty row selection whose last row carries the maximal timeslot index
and which spans at least two timeslots, every selected dataset row
belongs to exactly one RowChunk of exactly one Tile (its count over the
flattened tile list is one), every covered row is a selected row, and
the Tiles' [first_row, last_row] ranges are pairwise ordered and
disjoint. -/
theorem C2_partition (ddid_col times : Nat → Nat) (nrows : Nat) (ddids : List Nat)
    (tdim nfreq fdim minChunks : Nat)
    (_hnr : 0 < nrows) (htd : 0 < tdim) (hdd : ddids.Nodup)
    (hmem : ∀ r, r < nrows → ddid_col r ∈ ddids)
    (hlast : ∀ r, r < nrows → times r ≤ times (nrows - 1))
    (hts : 1 ≤ times (nrows - 1)) :
    (∀ r, r < nrows →
      (allTileRows (defineChunk ddid_col times nrows ddids tdim nfreq fdim
        minChunks)).count r = 1)
    ∧ (∀ r ∈ allTileRows (defineChunk ddid_col times nrows ddids tdim nfreq fdim
        minChunks), r < nrows)
    ∧ List.Pairwise (fun t u => t.last_row < u.first_row)
        (defineChunk ddid_col times nrows ddids tdim nfreq fdim minChunks) := by
  have htcs_chain := timechunksOf_chain (times (nrows - 1)) tdim htd
  have htcs_ne : timechunksOf (times (nrows - 1)) tdim ≠ [] := by
    simp [timechunksOf]
  have htcs_head := timechunksOf_headD (times (nrows - 1)) tdim hts htd
  have htcs_last := timechunksOf_getLastD (times (nrows - 1)) tdim
  have hperm := List.perm_insertionSort chunkLE
    (chunklistOf ddid_col times nrows ddids (timechunksOf (times (nrows - 1)) tdim))
  have hpermRows := hperm.flatMap_right (fun c => c.rows)
  have hflat : allTileRows (defineChunk ddid_col times nrows ddids tdim nfreq fdim
        minChunks)
      = (List.insertionSort chunkLE (chunklistOf ddid_col times nrows ddids
          (timechunksOf (times (nrows - 1)) tdim))).flatMap (fun c => c.rows) := by
    unfold allTileRows defineChunk
    rw [coarsen_flat, buildTiles_flat]
  refine ⟨?_, ?_, ?_⟩
  · intro r hr
    rw [hflat, hpermRows.count_eq]
    apply chunklist_count ddid_col times nrows ddids _ hdd r hr (hmem r hr)
      htcs_chain htcs_ne
    · rw [htcs_head]
      exact Nat.zero_le _
    · rw [htcs_last]
      have := hlast r hr
      omega
  · intro r hrmem
    rw [hflat] at hrmem
    exact chunklist_mem_lt ddid_col times nrows ddids _ r (hpermRows.mem_iff.mp hrmem)
  · unfold defineChunk
    have hsorted_cle : List.Pairwise chunkLE (List.insertionSort chunkLE
        (chunklistOf ddid_col times nrows ddids
          (timechunksOf (times (nrows - 1)) tdim))) :=
      List.sorted_insertionSort chunkLE _
    have hcwf : ∀ c ∈ List.insertionSort chunkLE (chunklistOf ddid_col times nrows
        ddids (timechunksOf (times (nrows - 1)) tdim)),
        c.rows.headD 0 ≤ c.rows.getLastD 0 := by
      intro c hc
      exact (chunk_head_le_getLast (hperm.mem_iff.mp hc)).2
    obtain ⟨hbt_pw, hbt_wf⟩ := buildTiles_ordered _ hcwf hsorted_cle
    unfold coarsen
    exact coarsen_go_ordered _ _ (buildTiles _) [] List.Pairwise.nil (by simp)
      hbt_pw hbt_wf (fun u hu t ht => absurd ht (List.not_mem_nil t))

/-- C2 witness: the partition theorem applied to a concrete two-row,
two-timeslot, one-DDID selection. -/
theorem C2_partition_witness :
    (∀ r, r < 2 →
      (allTileRows (defineChunk (fun _ => 0) (fun r => r) 2 [0] 1 1 1 1)).count r = 1)
    ∧ (∀ r ∈ allTileRows (defineChunk (fun _ => 0) (fun r => r) 2 [0] 1 1 1 1), r < 2)
    ∧ List.Pairwise (fun t u => t.last_row < u.first_row)
        (defineChunk (fun _ => 0) (fun r => r) 2 [0] 1 1 1 1) :=
  C2_partition (fun _ => 0) (fun r => r) 2 [0] 1 1 1 1 (by decide) (by decide)
    (by decide) (by decide) (by decide) (by decide)

end CubiCal
